import Mathlib

/-!
Verification of the exact-rational linear-algebra core of the
ALGEBRA_UMG_PROYECTO repository (fraction arithmetic, cofactor/Laplace
determinant engines, Gaussian/Gauss-Jordan elimination engines, Cramer
solvers, and the step-trace machinery).

The TypeScript sources are shallowly embedded as follows:

* JS `number` values are modelled as exact rationals `ℚ`; the literal
  tolerance guards (`Math.abs(x) < 1e-10`) of the floating-point code
  paths are kept as exact comparisons against `1 / 10 ^ 10`.
* The `Fraction` class (`src/utils/fraction.ts`) is a record of two
  integers, with the constructor performing the same gcd reduction and
  sign normalization as the source.
* Matrices are total functions `Fin n → Fin m → ℚ`; the row/column
  filtering that builds a minor corresponds to `Matrix.submatrix` with
  `Fin.succAbove`.
* All loops are embedded structurally (with explicit fuel where the
  source uses a `for`/`do-while` loop), so every definition computes by
  kernel reduction.
* `toDecimal()` comparisons used only to pick a pivot are modelled as
  exact rational comparisons: they influence only which row is selected,
  never the arithmetic itself.
-/

namespace Spec2Proof

/-! ## Fraction (src/utils/fraction.ts) -/

/-- Euclidean gcd loop from the source (`gcd(a, b) = b === 0 ? a : gcd(b, a % b)`),
embedded with explicit fuel so that it reduces structurally.  The fuel
`b + 1` of `jsGcd` is always sufficient because the second argument
strictly decreases. -/
def jsGcdAux : ℕ → ℕ → ℕ → ℕ
  | 0, a, _ => a
  | fuel + 1, a, b => if b = 0 then a else jsGcdAux fuel b (a % b)

/-- The gcd helper of the Fraction class (fraction.ts lines 28-30). -/
def jsGcd (a b : ℕ) : ℕ := jsGcdAux (b + 1) a b

theorem jsGcdAux_eq_gcd : ∀ (fuel a b : ℕ), b < fuel → jsGcdAux fuel a b = Nat.gcd a b := by
  intro fuel
  induction fuel with
  | zero => intro a b h; omega
  | succ f ih =>
    intro a b h
    by_cases hb : b = 0
    · subst hb; simp [jsGcdAux]
    · have hmod : a % b < b := Nat.mod_lt _ (Nat.pos_of_ne_zero hb)
      have hlt : a % b < f := by omega
      calc jsGcdAux (f + 1) a b = jsGcdAux f b (a % b) := by simp [jsGcdAux, hb]
        _ = Nat.gcd b (a % b) := ih b (a % b) hlt
        _ = Nat.gcd (a % b) b := Nat.gcd_comm _ _
        _ = Nat.gcd b a := (Nat.gcd_rec b a).symm
        _ = Nat.gcd a b := Nat.gcd_comm _ _

theorem jsGcd_eq_gcd (a b : ℕ) : jsGcd a b = Nat.gcd a b :=
  jsGcdAux_eq_gcd (b + 1) a b (Nat.lt_succ_self b)

/-- The Fraction record: the class has public fields `numerator` and
`denominator` (fraction.ts lines 4-6). -/
structure Fraction where
  numerator : ℤ
  denominator : ℤ
deriving DecidableEq

/-- The Fraction constructor (fraction.ts lines 8-23): reduce by the gcd of
the absolute values and move the sign into the numerator.  The source
throws when `denominator === 0`; all theorems about the constructor carry
that precondition as a hypothesis. -/
def Fraction.make (num den : ℤ) : Fraction :=
  let g : ℤ := (jsGcd num.natAbs den.natAbs : ℤ)
  let n := num / g
  let d := den / g
  if d < 0 then ⟨-n, -d⟩ else ⟨n, d⟩

/-- Method `add` (fraction.ts lines 72-76). -/
def Fraction.add (a b : Fraction) : Fraction :=
  Fraction.make (a.numerator * b.denominator + b.numerator * a.denominator)
    (a.denominator * b.denominator)

/-- Method `subtract` (fraction.ts lines 81-85). -/
def Fraction.subtract (a b : Fraction) : Fraction :=
  Fraction.make (a.numerator * b.denominator - b.numerator * a.denominator)
    (a.denominator * b.denominator)

/-- Method `multiply` (fraction.ts lines 90-92). -/
def Fraction.multiply (a b : Fraction) : Fraction :=
  Fraction.make (a.numerator * b.numerator) (a.denominator * b.denominator)

/-- Method `divide` (fraction.ts lines 97-102); the source throws when the
divisor has numerator 0, so theorems carry that hypothesis. -/
def Fraction.divide (a b : Fraction) : Fraction :=
  Fraction.make (a.numerator * b.denominator) (a.denominator * b.numerator)

/-- Method `negate` (fraction.ts lines 135-137). -/
def Fraction.negate (a : Fraction) : Fraction :=
  Fraction.make (-a.numerator) a.denominator

/-- Method `abs` (fraction.ts lines 128-130). -/
def Fraction.absVal (a : Fraction) : Fraction :=
  Fraction.make |a.numerator| a.denominator

/-- Method `clone` (fraction.ts lines 194-196): goes through the constructor. -/
def Fraction.clone (a : Fraction) : Fraction :=
  Fraction.make a.numerator a.denominator

/-- Method `isZero` (fraction.ts lines 121-123). -/
def Fraction.isZero (a : Fraction) : Bool := a.numerator == 0

/-- Method `isInteger` (fraction.ts lines 114-116). -/
def Fraction.isInteger (a : Fraction) : Bool := a.denominator == 1

/-- Method `equals` (fraction.ts lines 142-144): field-wise comparison. -/
def Fraction.equals (a b : Fraction) : Bool :=
  a.numerator == b.numerator && a.denominator == b.denominator

/-- Method `toDecimal` (fraction.ts lines 107-109): the quotient value.  In
this embedding JS numbers are exact rationals. -/
def Fraction.toDecimal (a : Fraction) : ℚ :=
  (a.numerator : ℚ) / (a.denominator : ℚ)

/-- Invariant claimed by the spec for every Fraction value: lowest terms
and a strictly positive denominator. -/
def Fraction.Reduced (a : Fraction) : Prop :=
  0 < a.denominator ∧ Int.gcd a.numerator a.denominator = 1

theorem Fraction.make_reduced (num den : ℤ) (hd : den ≠ 0) :
    (Fraction.make num den).Reduced := by
  unfold Fraction.make Fraction.Reduced
  have hg : jsGcd num.natAbs den.natAbs = Int.gcd num den := by
    rw [jsGcd_eq_gcd]; rfl
  rw [hg]
  set g : ℤ := (Int.gcd num den : ℤ) with hgdef
  have hgpos : 0 < Int.gcd num den :=
    Nat.gcd_pos_of_pos_right _ (Int.natAbs_pos.mpr hd)
  have hgz : (0 : ℤ) < g := by rw [hgdef]; exact_mod_cast hgpos
  have hdvd : g ∣ den := Int.gcd_dvd_right
  have hquot : den / g * g = den := Int.ediv_mul_cancel hdvd
  have hdq : den / g ≠ 0 := by
    intro h0
    rw [h0, zero_mul] at hquot
    exact hd hquot.symm
  have hcop : Int.gcd (num / g) (den / g) = 1 := by
    rw [hgdef]
    exact Int.gcd_div_gcd_div_gcd hgpos
  by_cases hneg : den / g < 0
  · simp only [hneg, if_pos]
    constructor
    · omega
    · simpa [Int.gcd] using hcop
  · simp only [hneg, if_neg, not_false_iff]
    constructor
    · omega
    · exact hcop

theorem Fraction.add_reduced (a b : Fraction) (ha : a.denominator ≠ 0)
    (hb : b.denominator ≠ 0) : (a.add b).Reduced :=
  Fraction.make_reduced _ _ (mul_ne_zero ha hb)

theorem Fraction.subtract_reduced (a b : Fraction) (ha : a.denominator ≠ 0)
    (hb : b.denominator ≠ 0) : (a.subtract b).Reduced :=
  Fraction.make_reduced _ _ (mul_ne_zero ha hb)

theorem Fraction.multiply_reduced (a b : Fraction) (ha : a.denominator ≠ 0)
    (hb : b.denominator ≠ 0) : (a.multiply b).Reduced :=
  Fraction.make_reduced _ _ (mul_ne_zero ha hb)

theorem Fraction.divide_reduced (a b : Fraction) (ha : a.denominator ≠ 0)
    (hb : b.numerator ≠ 0) : (a.divide b).Reduced :=
  Fraction.make_reduced _ _ (mul_ne_zero ha hb)

theorem Fraction.negate_reduced (a : Fraction) (ha : a.denominator ≠ 0) :
    a.negate.Reduced :=
  Fraction.make_reduced _ _ ha

theorem Fraction.absVal_reduced (a : Fraction) (ha : a.denominator ≠ 0) :
    a.absVal.Reduced :=
  Fraction.make_reduced _ _ ha

theorem Fraction.clone_reduced (a : Fraction) (ha : a.denominator ≠ 0) :
    a.clone.Reduced :=
  Fraction.make_reduced _ _ ha

/-- C2.  Every Fraction produced by the constructor or by any arithmetic
operation (add, subtract, multiply, divide, negate, abs, clone) is stored
in lowest terms with a strictly positive denominator; in particular
constructing with (2,4), (-3,-6) and (3,-6) yields 1/2, 1/2 and -1/2. -/
theorem fraction_normalization_invariant :
    (∀ num den : ℤ, den ≠ 0 → (Fraction.make num den).Reduced) ∧
    (∀ a b : Fraction, a.denominator ≠ 0 → b.denominator ≠ 0 →
      (a.add b).Reduced ∧ (a.subtract b).Reduced ∧ (a.multiply b).Reduced) ∧
    (∀ a b : Fraction, a.denominator ≠ 0 → b.numerator ≠ 0 →
      (a.divide b).Reduced) ∧
    (∀ a : Fraction, a.denominator ≠ 0 →
      a.negate.Reduced ∧ a.absVal.Reduced ∧ a.clone.Reduced) ∧
    Fraction.make 2 4 = ⟨1, 2⟩ ∧
    Fraction.make (-3) (-6) = ⟨1, 2⟩ ∧
    Fraction.make 3 (-6) = ⟨-1, 2⟩ := by
  refine ⟨Fraction.make_reduced, ?_, ?_, ?_, ?_, ?_, ?_⟩
  · intro a b ha hb
    exact ⟨Fraction.add_reduced a b ha hb, Fraction.subtract_reduced a b ha hb,
      Fraction.multiply_reduced a b ha hb⟩
  · intro a b ha hb
    exact Fraction.divide_reduced a b ha hb
  · intro a ha
    exact ⟨Fraction.negate_reduced a ha, Fraction.absVal_reduced a ha,
      Fraction.clone_reduced a ha⟩
  · with_unfolding_all decide
  · with_unfolding_all decide
  · with_unfolding_all decide

/-- Witness for C2 at concrete inputs. -/
theorem fraction_normalization_invariant_witness :
    (Fraction.make 10 (-4)).Reduced ∧
    ((Fraction.mk 1 2).add (Fraction.mk 1 6)).Reduced :=
  ⟨fraction_normalization_invariant.1 10 (-4) (by decide),
    (fraction_normalization_invariant.2.1 ⟨1, 2⟩ ⟨1, 6⟩ (by decide) (by decide)).1⟩

/-! ## Fraction.fromDecimal (fraction.ts lines 35-67): continued fractions -/

/-- Floor of a rational, as `Math.floor` behaves on the (always
nonnegative) values fed to it by `fromDecimal`; it agrees with `⌊·⌋` on
all of `ℚ` (`ratFloor_eq_floor`) and reduces in the kernel. -/
def ratFloor (q : ℚ) : ℤ := q.num / q.den

theorem ratFloor_eq_floor (q : ℚ) : ratFloor q = ⌊q⌋ := Rat.floor_def.symm

/-- The convergence tolerance 1e-10 of the source. -/
def cfEps : ℚ := 1 / 10 ^ 10

/-- State of the do-while loop of `fromDecimal`: the current and previous
convergent numerators `h1, h2`, denominators `k1, k2`, and the continued
fraction remainder `x`. -/
structure CFState where
  h1 : ℤ
  h2 : ℤ
  k1 : ℤ
  k2 : ℤ
  x : ℚ
deriving DecidableEq

/-- Updated convergent numerator `h1 = a * h1 + h2` with `a = Math.floor(x)`
(fraction.ts lines 52-55). -/
def cfNextH (s : CFState) : ℤ := ratFloor s.x * s.h1 + s.h2

/-- Updated convergent denominator `k1 = a * k1 + k2` (fraction.ts lines 57-59). -/
def cfNextK (s : CFState) : ℤ := ratFloor s.x * s.k1 + s.k2

/-- One iteration of the do-while loop (fraction.ts lines 51-64): update
the convergents with `a = Math.floor(x)`; exit returning the updated
convergent when it overflows `maxDenominator`, when the remainder would
become infinite (`x - a = 0`, so JS computes `1/0 = Infinity` and the
while-condition fails), or when the approximation error has dropped to
`1e-10`; otherwise continue with the new remainder `1 / (x - a)`.  The
error test and the infinity test both exit with the same value, so their
relative order does not matter. -/
def cfStep (decimal : ℚ) (maxD : ℤ) (s : CFState) : CFState ⊕ (ℤ × ℤ) :=
  if maxD < cfNextK s then Sum.inr (cfNextH s, cfNextK s)
  else if s.x = (ratFloor s.x : ℚ) then Sum.inr (cfNextH s, cfNextK s)
  else if |decimal - (cfNextH s : ℚ) / (cfNextK s : ℚ)| ≤ cfEps then
    Sum.inr (cfNextH s, cfNextK s)
  else Sum.inl ⟨cfNextH s, s.h1, cfNextK s, s.k1, 1 / (s.x - (ratFloor s.x : ℚ))⟩

/-- The do-while loop, with explicit fuel (the source loop terminates on
its own; `cfLoop_isSome` shows the fuel used by `fromDecimal` suffices). -/
def cfLoop (decimal : ℚ) (maxD : ℤ) : ℕ → CFState → Option (ℤ × ℤ)
  | 0, _ => none
  | fuel + 1, s =>
    match cfStep decimal maxD s with
    | Sum.inr r => some r
    | Sum.inl s2 => cfLoop decimal maxD fuel s2

/-- Static method `fromDecimal` (fraction.ts lines 35-67): zero and
integer fast paths, then the continued fraction loop started from
`h1 = 1, h2 = 0, k1 = 0, k2 = 1, x = |decimal|`; the result is
`new Fraction(sign * h1, k1)` for the convergent at loop exit.  JS
`Number.isInteger` corresponds to `den = 1` for an exact rational. -/
def Fraction.fromDecimal (decimal : ℚ) (maxD : ℤ) : Fraction :=
  if decimal = 0 then Fraction.make 0 1
  else if |decimal|.den = 1 then
    Fraction.make ((if decimal < 0 then -1 else 1) * |decimal|.num) 1
  else
    match cfLoop |decimal| maxD (|decimal|).den ⟨1, 0, 0, 1, |decimal|⟩ with
    | some (h, k) => Fraction.make ((if decimal < 0 then -1 else 1) * h) k
    | none => Fraction.make 0 1

/-- Size measure that strictly decreases across every continued-fraction
iteration: the numerator of the fractional part of the remainder. -/
def cfMeasure (s : CFState) : ℕ := (Int.fract s.x).num.natAbs

theorem cfStep_inl_eq (decimal : ℚ) (maxD : ℤ) (s s2 : CFState)
    (h : cfStep decimal maxD s = Sum.inl s2) :
    s2 = ⟨cfNextH s, s.h1, cfNextK s, s.k1, 1 / (s.x - (ratFloor s.x : ℚ))⟩ ∧
      ¬ maxD < cfNextK s ∧ s.x ≠ (ratFloor s.x : ℚ) := by
  unfold cfStep at h
  split at h
  · simp at h
  · split at h
    · simp at h
    · split at h
      · simp at h
      · rename_i h1 h2 _
        injection h with h4
        exact ⟨h4.symm, h1, h2⟩

theorem cfStep_inr_eq (decimal : ℚ) (maxD : ℤ) (s : CFState) (h k : ℤ)
    (hstep : cfStep decimal maxD s = Sum.inr (h, k)) :
    h = cfNextH s ∧ k = cfNextK s := by
  unfold cfStep at hstep
  split at hstep
  · injection hstep with h2
    injection h2 with h3 h4
    exact ⟨h3.symm, h4.symm⟩
  · split at hstep
    · injection hstep with h2
      injection h2 with h3 h4
      exact ⟨h3.symm, h4.symm⟩
    · split at hstep
      · injection hstep with h2
        injection h2 with h3 h4
        exact ⟨h3.symm, h4.symm⟩
      · simp at hstep

theorem cf_fract_pos (s : CFState) (hne : s.x ≠ (ratFloor s.x : ℚ)) :
    0 < Int.fract s.x := by
  rcases lt_or_eq_of_le (Int.fract_nonneg s.x) with hlt | heq
  · exact hlt
  · exfalso
    apply hne
    have h0 : s.x - (⌊s.x⌋ : ℚ) = 0 := by
      have : Int.fract s.x = s.x - (⌊s.x⌋ : ℚ) := rfl
      rw [← this, ← heq]
    rw [ratFloor_eq_floor]
    linarith [sub_eq_zero.mp h0]

theorem cfStep_measure_lt (decimal : ℚ) (maxD : ℤ) (s s2 : CFState)
    (h : cfStep decimal maxD s = Sum.inl s2) : cfMeasure s2 < cfMeasure s := by
  obtain ⟨hs2, -, hne⟩ := cfStep_inl_eq decimal maxD s s2 h
  have hfr : s.x - (ratFloor s.x : ℚ) = Int.fract s.x := by
    rw [ratFloor_eq_floor]; rfl
  have hpos : 0 < Int.fract s.x := cf_fract_pos s hne
  have hkey : (Int.fract (Int.fract s.x)⁻¹).num < (Int.fract s.x).num :=
    Rat.fract_inv_num_lt_num_of_pos hpos
  have hx2i : s2.x = (Int.fract s.x)⁻¹ := by
    rw [hs2]
    simp only
    rw [hfr, one_div]
  have hnn : 0 ≤ (Int.fract s2.x).num :=
    Rat.num_nonneg.mpr (Int.fract_nonneg _)
  unfold cfMeasure
  rw [hx2i] at *
  omega

theorem cfLoop_isSome (decimal : ℚ) (maxD : ℤ) :
    ∀ (fuel : ℕ) (s : CFState), cfMeasure s < fuel →
      (cfLoop decimal maxD fuel s).isSome = true := by
  intro fuel
  induction fuel with
  | zero => intro s h; omega
  | succ f ih =>
    intro s h
    unfold cfLoop
    cases hstep : cfStep decimal maxD s with
    | inr r => simp
    | inl s2 =>
      simp only
      exact ih s2 (by have := cfStep_measure_lt decimal maxD s s2 hstep; omega)

/-- Loop-state invariant maintained by `fromDecimal`: either the initial
state (`k1 = 0, k2 = 1`, positive remainder) or a mid-loop state
(`k1 ≥ 1, k2 ≥ 0`, remainder strictly above 1). -/
def CFInv (s : CFState) : Prop :=
  (s.k1 = 0 ∧ s.k2 = 1 ∧ 0 < s.x) ∨ (1 ≤ s.k1 ∧ 0 ≤ s.k2 ∧ 1 < s.x)

theorem cfStep_inl_spec (decimal : ℚ) (maxD : ℤ) (s s2 : CFState)
    (hinv : CFInv s) (h : cfStep decimal maxD s = Sum.inl s2) :
    CFInv s2 ∧ s2.k1 ≤ maxD ∧ s.k1 ≤ s2.k1 ∧ (1 ≤ s.k2 → s.k1 < s2.k1) ∧
      s2.k2 = s.k1 := by
  obtain ⟨hs2, hover, hne⟩ := cfStep_inl_eq decimal maxD s s2 h
  have hfr : s.x - (ratFloor s.x : ℚ) = Int.fract s.x := by
    rw [ratFloor_eq_floor]; rfl
  have hfpos : 0 < Int.fract s.x := cf_fract_pos s hne
  have hflt : Int.fract s.x < 1 := Int.fract_lt_one s.x
  have hx2gt : 1 < s2.x := by
    rw [hs2]
    simp only
    rw [hfr, one_div]
    exact (one_lt_inv_iff₀).mpr ⟨hfpos, hflt⟩
  have hk1eq : s2.k1 = ratFloor s.x * s.k1 + s.k2 := by rw [hs2]; rfl
  have hk2eq : s2.k2 = s.k1 := by rw [hs2]
  have hoverle : ratFloor s.x * s.k1 + s.k2 ≤ maxD := by
    unfold cfNextK at hover; omega
  rcases hinv with ⟨h1, h2, h3⟩ | ⟨h1, h2, h3⟩
  · have hk1v : s2.k1 = 1 := by rw [hk1eq, h1, h2]; ring
    refine ⟨Or.inr ⟨by omega, by omega, hx2gt⟩, by omega, by omega, by omega, hk2eq⟩
  · have ha1 : 1 ≤ ratFloor s.x := by
      rw [ratFloor_eq_floor]
      exact Int.le_floor.mpr (by exact_mod_cast le_of_lt h3)
    have hk1le : s.k1 ≤ s2.k1 := by rw [hk1eq]; nlinarith
    have hstrict : 1 ≤ s.k2 → s.k1 < s2.k1 := by
      intro hk2pos; rw [hk1eq]; nlinarith
    refine ⟨Or.inr ⟨by omega, by omega, hx2gt⟩, by omega, hk1le, hstrict, hk2eq⟩

theorem cfStep_inr_spec (decimal : ℚ) (maxD : ℤ) (s : CFState) (h k : ℤ)
    (hinv : CFInv s) (hstep : cfStep decimal maxD s = Sum.inr (h, k)) :
    1 ≤ k ∧ k = ratFloor s.x * s.k1 + s.k2 := by
  obtain ⟨-, hk⟩ := cfStep_inr_eq decimal maxD s h k hstep
  have hk2 : k = ratFloor s.x * s.k1 + s.k2 := by rw [hk]; rfl
  refine ⟨?_, hk2⟩
  rcases hinv with ⟨h1, h2, h3⟩ | ⟨h1, h2, h3⟩
  · have hkv : k = 1 := by rw [hk2, h1, h2]; ring
    omega
  · have ha1 : 1 ≤ ratFloor s.x := by
      rw [ratFloor_eq_floor]
      exact Int.le_floor.mpr (by exact_mod_cast le_of_lt h3)
    nlinarith

theorem cfLoop_result_spec (decimal : ℚ) (maxD : ℤ) :
    ∀ (fuel : ℕ) (s : CFState) (h k : ℤ), CFInv s → s.k1 ≤ maxD →
      cfLoop decimal maxD fuel s = some (h, k) →
      1 ≤ k ∧ (k ≤ maxD ∨ (maxD < k ∧ ∃ s2 : CFState, CFInv s2 ∧ s2.k1 ≤ maxD ∧
        cfStep decimal maxD s2 = Sum.inr (h, k) ∧
        k = ratFloor s2.x * s2.k1 + s2.k2)) := by
  intro fuel
  induction fuel with
  | zero => intro s h k _ _ hres; exact absurd hres (by simp [cfLoop])
  | succ f ih =>
    intro s h k hinv hk1 hres
    unfold cfLoop at hres
    cases hstep : cfStep decimal maxD s with
    | inr r =>
      rw [hstep] at hres
      simp only [Option.some.injEq] at hres
      obtain ⟨hh, hkk⟩ : r.1 = h ∧ r.2 = k := by
        cases r; injection hres with h1; simp_all
      have hr : cfStep decimal maxD s = Sum.inr (h, k) := by
        rw [hstep]; cases r; simp_all
      obtain ⟨hk1pos, hkform⟩ := cfStep_inr_spec decimal maxD s h k hinv hr
      refine ⟨hk1pos, ?_⟩
      by_cases hle : k ≤ maxD
      · exact Or.inl hle
      · exact Or.inr ⟨by omega, s, hinv, hk1, hr, hkform⟩
    | inl s2 =>
      rw [hstep] at hres
      obtain ⟨hinv2, hk2le, _, _, _⟩ := cfStep_inl_spec decimal maxD s s2 hinv hstep
      exact ih s2 h k hinv2 hk2le hres

theorem fraction_make_den_le (n k : ℤ) (hk : 0 < k) :
    (Fraction.make n k).denominator ≤ k := by
  have hgnn : (0 : ℤ) ≤ (jsGcd n.natAbs k.natAbs : ℤ) := Int.natCast_nonneg _
  have hq : 0 ≤ k / (jsGcd n.natAbs k.natAbs : ℤ) := Int.ediv_nonneg (le_of_lt hk) hgnn
  have hle : k / (jsGcd n.natAbs k.natAbs : ℤ) ≤ k := Int.ediv_le_self _ (le_of_lt hk)
  unfold Fraction.make
  by_cases hc : k / (jsGcd n.natAbs k.natAbs : ℤ) < 0
  · omega
  · simp only [hc, if_neg, not_false_iff]
    exact hle


theorem cfInit_measure_lt (d : ℚ) : cfMeasure ⟨1, 0, 0, 1, d⟩ < d.den := by
  unfold cfMeasure
  simp only
  have h1 : (Int.fract d).num < ((Int.fract d).den : ℤ) :=
    Rat.lt_one_iff_num_lt_denom.mp (Int.fract_lt_one d)
  have h2 : (Int.fract d).den ≤ d.den := by
    have hfr : Int.fract d = d + ((-⌊d⌋ : ℤ) : ℚ) := by
      have hdef : Int.fract d = d - (⌊d⌋ : ℚ) := rfl
      rw [hdef]
      push_cast
      ring
    have hdvd : (Int.fract d).den ∣ d.den * (((-⌊d⌋ : ℤ) : ℚ)).den := by
      rw [hfr]
      exact Rat.add_den_dvd _ _
    rw [Rat.den_intCast, mul_one] at hdvd
    exact Nat.le_of_dvd d.den_pos hdvd
  have h3 : 0 ≤ (Int.fract d).num := Rat.num_nonneg.mpr (Int.fract_nonneg d)
  omega

/-- C10 (amended).  The continued-fraction loop of `fromDecimal`
terminates on every (exact rational) input: along every iteration that
continues, the convergent denominator `k1` stays within `maxDenominator`
and never decreases, and it strictly increases as soon as the previous
denominator `k2` is positive (that is, from the third iteration on; the
second iteration may keep `k1 = 1`); moreover the numerator of the
fractional part of the remainder strictly decreases every iteration, so
the fuel `|decimal|.den` that `fromDecimal` passes to the loop always
suffices and the loop always produces a result. -/
theorem fromDecimal_loop_terminates :
    (∀ (dec : ℚ) (maxD : ℤ) (s s2 : CFState),
      cfStep dec maxD s = Sum.inl s2 → CFInv s →
      CFInv s2 ∧ s2.k1 ≤ maxD ∧ s.k1 ≤ s2.k1 ∧ (1 ≤ s.k2 → s.k1 < s2.k1)) ∧
    (∀ (dec : ℚ) (maxD : ℤ) (s s2 : CFState),
      cfStep dec maxD s = Sum.inl s2 → cfMeasure s2 < cfMeasure s) ∧
    (∀ (dec : ℚ) (maxD : ℤ),
      (cfLoop |dec| maxD (|dec|).den ⟨1, 0, 0, 1, |dec|⟩).isSome = true) := by
  refine ⟨?_, ?_, ?_⟩
  · intro dec maxD s s2 hstep hinv
    obtain ⟨h1, h2, h3, h4, -⟩ := cfStep_inl_spec dec maxD s s2 hinv hstep
    exact ⟨h1, h2, h3, h4⟩
  · intro dec maxD s s2 hstep
    exact cfStep_measure_lt dec maxD s s2 hstep
  · intro dec maxD
    exact cfLoop_isSome |dec| maxD _ _ (cfInit_measure_lt |dec|)

/-- Witness for C10 at the concrete input 3/5 with the default
`maxDenominator` 10000: the first loop iteration continues with the
invariant intact and a bounded, non-decreased denominator. -/
theorem fromDecimal_loop_terminates_witness :
    CFInv ⟨0, 1, 1, 0, (5 : ℚ) / 3⟩ ∧
      (⟨0, 1, 1, 0, (5 : ℚ) / 3⟩ : CFState).k1 ≤ 10000 ∧
      (⟨1, 0, 0, 1, (3 : ℚ) / 5⟩ : CFState).k1 ≤ (⟨0, 1, 1, 0, (5 : ℚ) / 3⟩ : CFState).k1 ∧
      (1 ≤ (⟨1, 0, 0, 1, (3 : ℚ) / 5⟩ : CFState).k2 →
        (⟨1, 0, 0, 1, (3 : ℚ) / 5⟩ : CFState).k1 < (⟨0, 1, 1, 0, (5 : ℚ) / 3⟩ : CFState).k1) :=
  fromDecimal_loop_terminates.1 ((3 : ℚ) / 5) 10000 ⟨1, 0, 0, 1, (3 : ℚ) / 5⟩
    ⟨0, 1, 1, 0, (5 : ℚ) / 3⟩ (by with_unfolding_all decide)
    (Or.inl ⟨rfl, rfl, by norm_num⟩)

/-- Counterexample for C10 as stated: the second loop iteration of
`fromDecimal(0.6)` starts with a positive convergent denominator
(`k1 = 1`) and does not strictly increase it (the next state again has
`k1 = 1`), so "each loop iteration strictly increases the convergent
denominator once it is positive" fails; the state is reachable, being
produced by the first iteration from the initial state. -/
theorem fromDecimal_strict_increase_counterexample :
    cfStep ((3 : ℚ) / 5) 10000 ⟨1, 0, 0, 1, (3 : ℚ) / 5⟩ =
        Sum.inl ⟨0, 1, 1, 0, (5 : ℚ) / 3⟩ ∧
      0 < (⟨0, 1, 1, 0, (5 : ℚ) / 3⟩ : CFState).k1 ∧
      cfStep ((3 : ℚ) / 5) 10000 ⟨0, 1, 1, 0, (5 : ℚ) / 3⟩ =
        Sum.inl ⟨1, 0, 1, 1, (3 : ℚ) / 2⟩ ∧
      ¬((⟨0, 1, 1, 0, (5 : ℚ) / 3⟩ : CFState).k1 <
        (⟨1, 0, 1, 1, (3 : ℚ) / 2⟩ : CFState).k1) := by
  refine ⟨?_, ?_, ?_, ?_⟩ <;> with_unfolding_all decide

/-- Counterexample for C4 as stated: `fromDecimal(0.4, 2)` exits by
overflowing `maxDenominator = 2` (the convergents are 0/1, 1/2, 2/5) but
returns the convergent computed in the overflowing iteration, 2/5, not
the last convergent before the limit was exceeded (which would be 1/2);
the denominator of the returned Fraction exceeds `maxDenominator`. -/
theorem fromDecimal_denominator_counterexample :
    Fraction.fromDecimal (mkRat 2 5) 2 = ⟨2, 5⟩ ∧
      ¬((Fraction.fromDecimal (mkRat 2 5) 2).denominator ≤ 2) := by
  constructor <;> with_unfolding_all decide

/-- C4 (amended).  The loop of `fromDecimal` enters every iteration with
the previous convergent denominator at most `maxDenominator`; when it
exits because the newly computed denominator overflows, it returns that
overflowing convergent (`k1 = a * k1 + k2` of the exiting step), so the
denominator of the returned Fraction is at most `maxDenominator` unless
the exit was by overflow, in which case the returned Fraction is built
from the first convergent past the limit. -/
theorem fromDecimal_denominator_amended :
    (∀ (dec : ℚ) (maxD : ℤ) (s s2 : CFState),
      cfStep dec maxD s = Sum.inl s2 → s2.k1 ≤ maxD) ∧
    (∀ (dec : ℚ) (maxD : ℤ) (fuel : ℕ) (s : CFState) (h k : ℤ),
      CFInv s → s.k1 ≤ maxD → cfLoop dec maxD fuel s = some (h, k) →
      1 ≤ k ∧ (k ≤ maxD ∨ (maxD < k ∧ ∃ s2 : CFState, CFInv s2 ∧ s2.k1 ≤ maxD ∧
        cfStep dec maxD s2 = Sum.inr (h, k) ∧ k = ratFloor s2.x * s2.k1 + s2.k2))) ∧
    (∀ (dec : ℚ) (maxD : ℤ), 0 ≤ maxD → dec ≠ 0 → (|dec|).den ≠ 1 →
      (Fraction.fromDecimal dec maxD).denominator ≤ maxD ∨
      (∃ (h k : ℤ) (s2 : CFState), CFInv s2 ∧ s2.k1 ≤ maxD ∧ maxD < k ∧
        cfStep |dec| maxD s2 = Sum.inr (h, k) ∧
        Fraction.fromDecimal dec maxD =
          Fraction.make ((if dec < 0 then -1 else 1) * h) k)) := by
  refine ⟨?_, ?_, ?_⟩
  · intro dec maxD s s2 hstep
    obtain ⟨hs2, hover, -⟩ := cfStep_inl_eq dec maxD s s2 hstep
    have : s2.k1 = cfNextK s := by rw [hs2]
    omega
  · intro dec maxD fuel s h k hinv hk1 hres
    exact cfLoop_result_spec dec maxD fuel s h k hinv hk1 hres
  · intro dec maxD hmax hdec hden
    unfold Fraction.fromDecimal
    rw [if_neg hdec, if_neg hden]
    cases hloop : cfLoop |dec| maxD (|dec|).den ⟨1, 0, 0, 1, |dec|⟩ with
    | none =>
      exfalso
      have := cfLoop_isSome |dec| maxD (|dec|).den ⟨1, 0, 0, 1, |dec|⟩
        (cfInit_measure_lt |dec|)
      rw [hloop] at this
      simp at this
    | some r =>
      obtain ⟨h, k⟩ := r
      have hinv0 : CFInv ⟨1, 0, 0, 1, |dec|⟩ :=
        Or.inl ⟨rfl, rfl, abs_pos.mpr hdec⟩
      obtain ⟨hk1, hcase⟩ := cfLoop_result_spec |dec| maxD (|dec|).den _ h k hinv0
        hmax hloop
      rcases hcase with hle | ⟨hgt, s2, hinv2, hk2, hstep2, hform⟩
      · left
        simp only
        calc (Fraction.make ((if dec < 0 then -1 else 1) * h) k).denominator ≤ k :=
              fraction_make_den_le _ k (by omega)
          _ ≤ maxD := hle
      · right
        exact ⟨h, k, s2, hinv2, hk2, hgt, hstep2, rfl⟩

/-- Witness for C4 (amended) at the concrete counterexample input. -/
theorem fromDecimal_denominator_amended_witness :
    (Fraction.fromDecimal (mkRat 2 5) 2).denominator ≤ 2 ∨
      (∃ (h k : ℤ) (s2 : CFState), CFInv s2 ∧ s2.k1 ≤ 2 ∧ 2 < k ∧
        cfStep |mkRat 2 5| 2 s2 = Sum.inr (h, k) ∧
        Fraction.fromDecimal (mkRat 2 5) 2 =
          Fraction.make ((if (mkRat 2 5 : ℚ) < 0 then -1 else 1) * h) k) :=
  fromDecimal_denominator_amended.2.2 (mkRat 2 5) 2 (by norm_num)
    (by norm_num) (by with_unfolding_all decide)

/-! ## Matrices and the two determinant engines

Square matrices are functions `Fin n → Fin n → ℚ`.  A `FractionMatrix`
entry is represented by its rational value: all Fraction arithmetic used
by the engines goes through the reducing constructor, so it is exact
rational arithmetic, `isZero` is value-equality with 0, and `equals` on
reduced fractions is value equality (supporting lemmas
`Fraction.make_toDecimal`, `Fraction.add_toDecimal`, ...). -/

abbrev Mat (n : ℕ) := Matrix (Fin n) (Fin n) ℚ

/-- The 1e-10 near-zero tolerance used by the floating-point code paths. -/
def tol : ℚ := 1 / 10 ^ 10

/-- MatrixMath.getMinor / LaplaceExpansionFractions.getMinorFraction:
delete one row and one column, keeping the order of the others; filtering
the index `i` out of `Fin (n+1)` is precisely `Fin.succAbove i`. -/
def getMinor {n : ℕ} (A : Mat (n + 1)) (i j : Fin (n + 1)) : Mat n :=
  A.submatrix i.succAbove j.succAbove

/-- An expansion axis: a row or a column, as returned by
`findOptimalExpansionRowOrColumn` (`type` and `index`). -/
inductive Axis (n : ℕ) where
  | row (index : Fin n)
  | col (index : Fin n)
deriving DecidableEq

/-- Index component of an axis. -/
def Axis.index {n : ℕ} : Axis n → Fin n
  | Axis.row i => i
  | Axis.col j => j

/-- Position of an axis in the scan order of the selector: all rows (in
index order) come before all columns (in index order). -/
def Axis.pos {n : ℕ} : Axis n → ℕ
  | Axis.row i => (i : ℕ)
  | Axis.col j => n + (j : ℕ)

/-- Number of entries of row `i` that the zero test `p` accepts. -/
def rowZeroCount {n : ℕ} (p : ℚ → Bool) (A : Mat n) (i : Fin n) : ℕ :=
  (Finset.univ.filter fun j => p (A i j) = true).card

/-- Number of entries of column `j` that the zero test `p` accepts. -/
def colZeroCount {n : ℕ} (p : ℚ → Bool) (A : Mat n) (j : Fin n) : ℕ :=
  (Finset.univ.filter fun i => p (A i j) = true).card

/-- Zero count of an axis. -/
def axisZeroCount {n : ℕ} (p : ℚ → Bool) (A : Mat n) : Axis n → ℕ
  | Axis.row i => rowZeroCount p A i
  | Axis.col j => colZeroCount p A j

/-- One comparison of the selector loop: keep the incumbent unless the
candidate has strictly more zeros (`if (zeros > maxZeros)`). -/
def selectAxis {n : ℕ} (cnt : Axis n → ℕ) (st : Axis n × ℤ) (a : Axis n) :
    Axis n × ℤ :=
  if st.2 < (cnt a : ℤ) then (a, (cnt a : ℤ)) else st

/-- The scan order of both selectors: every row, then every column. -/
def axisList (n : ℕ) : List (Axis n) :=
  ((List.finRange n).map Axis.row) ++ ((List.finRange n).map Axis.col)

/-- Shared shape of `findOptimalExpansionRowOrColumn`: fold the strict
argmax over rows then columns, starting from `(row 0, init)`; the
fraction variant starts `maxZeros` at -1, the floating variant at 0. -/
def findOptimal {n : ℕ} (p : ℚ → Bool) (init : ℤ) (A : Mat (n + 1)) :
    Axis (n + 1) × ℤ :=
  (axisList (n + 1)).foldl (selectAxis (axisZeroCount p A)) (Axis.row 0, init)

/-- Exact zero test of the rational code paths (`Fraction.isZero`). -/
def isZeroQ (x : ℚ) : Bool := decide (x = 0)

/-- Near-zero test of the floating code paths (`Math.abs(x) < 1e-10`). -/
def isZeroF (x : ℚ) : Bool := decide (|x| < tol)

/-- LaplaceExpansionFractions.findOptimalExpansionRowOrColumn
(unnamed/part_000 lines 187-220): exact zero test, `maxZeros` starts -1. -/
def findOptimalQ {n : ℕ} (A : Mat (n + 1)) : Axis (n + 1) × ℤ :=
  findOptimal isZeroQ (-1) A

/-- LaplaceExpansion.findOptimalExpansionRowOrColumn (laplaceExpansion.ts
lines 514-551): 1e-10 near-zero test, `maxZeros` starts 0. -/
def findOptimalF {n : ℕ} (A : Mat (n + 1)) : Axis (n + 1) × ℤ :=
  findOptimal isZeroF 0 A

/-- LaplaceExpansionFractions.expandByRow (unnamed/part_000 lines 60-173):
1x1 and 2x2 base cases, otherwise expand along the given row, skipping
exactly zero entries; every recursive call expands the minor along row 0. -/
def expandByRowQ : (n : ℕ) → Mat n → Fin n → ℚ
  | 0, _, r => r.elim0
  | 1, A, _ => A 0 0
  | 2, A, _ => A 0 0 * A 1 1 - A 0 1 * A 1 0
  | n + 3, A, row =>
    ∑ j : Fin (n + 3),
      if A row j = 0 then 0
      else (-1 : ℚ) ^ ((row : ℕ) + (j : ℕ)) * A row j *
        expandByRowQ (n + 2) (getMinor A row j) 0

/-- LaplaceExpansionFractions.expandByColumn (unnamed/part_000 lines
225-262): base cases as for rows, otherwise expand along the given
column, skipping zero entries; each minor recurses along the index picked
by `findOptimalExpansionRowOrColumn` (used as a column index). -/
def expandByColQ : (n : ℕ) → Mat n → Fin n → ℚ
  | 0, _, c => c.elim0
  | 1, A, _ => A 0 0
  | 2, A, _ => A 0 0 * A 1 1 - A 0 1 * A 1 0
  | n + 3, A, col =>
    ∑ i : Fin (n + 3),
      if A i col = 0 then 0
      else (-1 : ℚ) ^ ((i : ℕ) + (col : ℕ)) * A i col *
        expandByColQ (n + 2) (getMinor A i col)
          ((findOptimalQ (getMinor A i col)).1.index)

/-- Value computed by LaplaceExpansionFractions.calculateDeterminant on an
already-converted fraction matrix: select the optimal axis and expand. -/
def laplaceDetCoreQ {n : ℕ} (A : Mat (n + 1)) : ℚ :=
  match (findOptimalQ A).1 with
  | Axis.row i => expandByRowQ (n + 1) A i
  | Axis.col j => expandByColQ (n + 1) A j

/-- Value of a JS number converted through `Fraction.fromDecimal` (used by
FractionMatrixUtils.fromNumberMatrix with the default maxDenominator). -/
def fromDecimalValue (x : ℚ) : ℚ := (Fraction.fromDecimal x 10000).toDecimal

/-- FractionMatrixUtils.fromNumberMatrix (fraction.ts lines 213-217). -/
def fromNumberMatrix {n m : ℕ} (M : Matrix (Fin n) (Fin m) ℚ) :
    Matrix (Fin n) (Fin m) ℚ :=
  fun i j => fromDecimalValue (M i j)

/-- LaplaceExpansionFractions.calculateDeterminant (unnamed/part_000 lines
10-55): convert the number matrix to fractions, then expand. -/
def laplaceFractionsCalculateDeterminant {n : ℕ} (M : Mat (n + 1)) : ℚ :=
  laplaceDetCoreQ (fromNumberMatrix M)

/-- FractionMatrixUtils.findPivot (fraction.ts lines 300-313): scan the
rows below `startRow`, replacing the incumbent when the candidate is
nonzero and either the incumbent is zero or the candidate is larger (the
`toDecimal()` magnitude comparison is modelled exactly; it only selects
the row). -/
def findPivotQ {n m : ℕ} (W : Matrix (Fin n) (Fin m) ℚ) (startRow : Fin n)
    (col : Fin m) : Fin n :=
  (((List.finRange n).filter fun i => startRow < i).foldl
    (fun st i =>
      if ¬(|W i col| = 0) ∧ (st.2 = 0 ∨ st.2 < |W i col|) then (i, |W i col|)
      else st)
    (startRow, |W startRow col|)).1

/-- FractionMatrixUtils.swapRows (fraction.ts lines 263-267), as the
pointwise function it produces. -/
def swapRows {n m : ℕ} (W : Matrix (Fin n) (Fin m) ℚ) (a b : Fin n) :
    Matrix (Fin n) (Fin m) ℚ :=
  fun r c => if r = a then W b c else if r = b then W a c else W r c

/-- Elimination below the pivot in GaussianEliminationFractions.
calculateDeterminant (gaussianElimination.ts lines 589-603): for every row
below `i` with a nonzero entry in column `i`, add
`factor = -W[j][i] / W[i][i]` times row `i`; each row is updated from the
unchanged pivot row, so the loop is this pointwise function. -/
def eliminateBelowQ {n : ℕ} (W : Mat n) (i : Fin n) : Mat n :=
  fun r c =>
    if (i : ℕ) < (r : ℕ) ∧ ¬(W r i = 0) then
      W r c + -(W r i) / W i i * W i c
    else W r c

/-- Forward elimination loop of GaussianEliminationFractions.
calculateDeterminant (gaussianElimination.ts lines 551-604): for each
column `i < n - 1`, find the pivot, return determinant 0 if it is zero,
swap it into place (counting the swap), and eliminate below; the fuel is
structural and `n` suffices. -/
def gaussForwardQ {n : ℕ} : ℕ → ℕ → Mat n → ℕ → Option (Mat n × ℕ)
  | 0, _, W, swaps => some (W, swaps)
  | fuel + 1, i, W, swaps =>
    if h : i < n - 1 then
      if W (findPivotQ W ⟨i, by omega⟩ ⟨i, by omega⟩) ⟨i, by omega⟩ = 0 then none
      else if findPivotQ W ⟨i, by omega⟩ ⟨i, by omega⟩ = ⟨i, by omega⟩ then
        gaussForwardQ fuel (i + 1) (eliminateBelowQ W ⟨i, by omega⟩) swaps
      else
        gaussForwardQ fuel (i + 1)
          (eliminateBelowQ
            (swapRows W ⟨i, by omega⟩ (findPivotQ W ⟨i, by omega⟩ ⟨i, by omega⟩))
            ⟨i, by omega⟩)
          (swaps + 1)
    else some (W, swaps)

/-- Value computed by GaussianEliminationFractions.calculateDeterminant on
an already-converted fraction matrix: eliminate forward, then take the
product of the diagonal, negated when the swap count is odd. -/
def gaussDetCoreQ {n : ℕ} (A : Mat n) : ℚ :=
  match gaussForwardQ n 0 A 0 with
  | none => 0
  | some (W, swaps) =>
    if swaps % 2 = 1 then -(∏ i : Fin n, W i i) else ∏ i : Fin n, W i i

/-- GaussianEliminationFractions.calculateDeterminant (gaussianElimination.ts
lines 530-633): convert the number matrix to fractions, then eliminate. -/
def gaussFractionsCalculateDeterminant {n : ℕ} (M : Mat n) : ℚ :=
  gaussDetCoreQ (fromNumberMatrix M)

/-- LaplaceExpansion.expandByRow (laplaceExpansion.ts lines 53-168),
floating variant: near-zero entries (tolerance 1e-10) are skipped; each
minor recurses along the index picked by the floating selector. -/
def expandByRowF : (n : ℕ) → Mat n → Fin n → ℚ
  | 0, _, r => r.elim0
  | 1, A, _ => A 0 0
  | 2, A, _ => A 0 0 * A 1 1 - A 0 1 * A 1 0
  | n + 3, A, row =>
    ∑ j : Fin (n + 3),
      if |A row j| < tol then 0
      else (-1 : ℚ) ^ ((row : ℕ) + (j : ℕ)) * A row j *
        expandByRowF (n + 2) (getMinor A row j)
          ((findOptimalF (getMinor A row j)).1.index)

/-- LaplaceExpansion.expandByColumn (laplaceExpansion.ts lines 173-284),
floating variant. -/
def expandByColF : (n : ℕ) → Mat n → Fin n → ℚ
  | 0, _, c => c.elim0
  | 1, A, _ => A 0 0
  | 2, A, _ => A 0 0 * A 1 1 - A 0 1 * A 1 0
  | n + 3, A, col =>
    ∑ i : Fin (n + 3),
      if |A i col| < tol then 0
      else (-1 : ℚ) ^ ((i : ℕ) + (col : ℕ)) * A i col *
        expandByColF (n + 2) (getMinor A i col)
          ((findOptimalF (getMinor A i col)).1.index)

/-- LaplaceExpansion.calculateDeterminant (laplaceExpansion.ts lines 9-48),
floating variant: no fraction conversion, optimal axis, expand. -/
def laplaceCalculateDeterminantF {n : ℕ} (A : Mat (n + 1)) : ℚ :=
  match (findOptimalF A).1 with
  | Axis.row i => expandByRowF (n + 1) A i
  | Axis.col j => expandByColF (n + 1) A j

/-- MatrixMath.findPivot (laplaceExpansion.ts lines 648-661): plain
largest-magnitude scan below `startRow` with strict improvement. -/
def findPivotF {n m : ℕ} (W : Matrix (Fin n) (Fin m) ℚ) (startRow : Fin n)
    (col : Fin m) : Fin n :=
  (((List.finRange n).filter fun i => startRow < i).foldl
    (fun st i => if st.2 < |W i col| then (i, |W i col|) else st)
    (startRow, |W startRow col|)).1

/-- Elimination below the pivot in GaussianElimination.calculateDeterminant
(gaussianElimination.ts lines 266-280): the row operation is applied only
when `|factor| > 1e-10`, with `factor = -W[j][i] / W[i][i]`. -/
def eliminateBelowF {n : ℕ} (W : Mat n) (i : Fin n) : Mat n :=
  fun r c =>
    if (i : ℕ) < (r : ℕ) ∧ tol < |(-(W r i)) / W i i| then
      W r c + -(W r i) / W i i * W i c
    else W r c

/-- Forward elimination loop of GaussianElimination.calculateDeterminant
(gaussianElimination.ts lines 234-281), floating variant: the zero-pivot
exit uses the 1e-10 tolerance. -/
def gaussForwardF {n : ℕ} : ℕ → ℕ → Mat n → ℕ → Option (Mat n × ℕ)
  | 0, _, W, swaps => some (W, swaps)
  | fuel + 1, i, W, swaps =>
    if h : i < n - 1 then
      if |W (findPivotF W ⟨i, by omega⟩ ⟨i, by omega⟩) ⟨i, by omega⟩| < tol then none
      else if findPivotF W ⟨i, by omega⟩ ⟨i, by omega⟩ = ⟨i, by omega⟩ then
        gaussForwardF fuel (i + 1) (eliminateBelowF W ⟨i, by omega⟩) swaps
      else
        gaussForwardF fuel (i + 1)
          (eliminateBelowF
            (swapRows W ⟨i, by omega⟩ (findPivotF W ⟨i, by omega⟩ ⟨i, by omega⟩))
            ⟨i, by omega⟩)
          (swaps + 1)
    else some (W, swaps)

/-- GaussianElimination.calculateDeterminant (gaussianElimination.ts lines
215-303), floating variant. -/
def gaussCalculateDeterminantF {n : ℕ} (A : Mat n) : ℚ :=
  match gaussForwardF n 0 A 0 with
  | none => 0
  | some (W, swaps) =>
    if swaps % 2 = 1 then -(∏ i : Fin n, W i i) else ∏ i : Fin n, W i i

/-! ## The cofactor engine computes the determinant -/

theorem expandByRowQ_eq_det :
    ∀ (n : ℕ) (A : Mat n) (r : Fin n), expandByRowQ n A r = A.det := by
  intro n
  induction n using Nat.strong_induction_on with
  | _ n ih =>
    match n with
    | 0 => intro A r; exact r.elim0
    | 1 => intro A r; rw [Matrix.det_fin_one]; rfl
    | 2 => intro A r; rw [Matrix.det_fin_two]; rfl
    | m + 3 =>
      intro A r
      rw [Matrix.det_succ_row A r]
      simp only [expandByRowQ]
      apply Finset.sum_congr rfl
      intro j _
      by_cases hz : A r j = 0
      · rw [if_pos hz, hz]
        ring
      · rw [if_neg hz, ih (m + 2) (by omega) (getMinor A r j) 0]
        rfl

theorem expandByColQ_eq_det :
    ∀ (n : ℕ) (A : Mat n) (c : Fin n), expandByColQ n A c = A.det := by
  intro n
  induction n using Nat.strong_induction_on with
  | _ n ih =>
    match n with
    | 0 => intro A c; exact c.elim0
    | 1 => intro A c; rw [Matrix.det_fin_one]; rfl
    | 2 => intro A c; rw [Matrix.det_fin_two]; rfl
    | m + 3 =>
      intro A c
      rw [Matrix.det_succ_column A c]
      simp only [expandByColQ]
      apply Finset.sum_congr rfl
      intro i _
      by_cases hz : A i c = 0
      · rw [if_pos hz, hz]
        ring
      · rw [if_neg hz, ih (m + 2) (by omega) (getMinor A i c) _]
        rfl

theorem laplaceDetCoreQ_eq_det {n : ℕ} (A : Mat (n + 1)) :
    laplaceDetCoreQ A = A.det := by
  unfold laplaceDetCoreQ
  cases h : (findOptimalQ A).1 with
  | row i => exact expandByRowQ_eq_det (n + 1) A i
  | col j => exact expandByColQ_eq_det (n + 1) A j

/-! ## The elimination engine computes the determinant -/

/-- One comparison of `FractionMatrixUtils.findPivot`. -/
def pivotStepQ {n m : ℕ} (W : Matrix (Fin n) (Fin m) ℚ) (col : Fin m)
    (st : Fin n × ℚ) (i : Fin n) : Fin n × ℚ :=
  if ¬(|W i col| = 0) ∧ (st.2 = 0 ∨ st.2 < |W i col|) then (i, |W i col|) else st

theorem findPivotQ_eq_fold {n m : ℕ} (W : Matrix (Fin n) (Fin m) ℚ)
    (startRow : Fin n) (col : Fin m) :
    findPivotQ W startRow col =
      (((List.finRange n).filter fun i => startRow < i).foldl (pivotStepQ W col)
        (startRow, |W startRow col|)).1 := rfl

theorem pivotStepQ_foldl_spec {n m : ℕ} (W : Matrix (Fin n) (Fin m) ℚ)
    (col : Fin m) :
    ∀ (L : List (Fin n)) (st : Fin n × ℚ), st.2 = |W st.1 col| →
      (L.foldl (pivotStepQ W col) st).2 =
          |W (L.foldl (pivotStepQ W col) st).1 col| ∧
        ((L.foldl (pivotStepQ W col) st).2 = 0 →
          st.2 = 0 ∧ ∀ a ∈ L, W a col = 0) ∧
        ((L.foldl (pivotStepQ W col) st).1 = st.1 ∨
          (L.foldl (pivotStepQ W col) st).1 ∈ L) := by
  intro L
  induction L with
  | nil =>
    intro st hst
    exact ⟨hst, fun h0 => ⟨h0, by simp⟩, Or.inl rfl⟩
  | cons a L ih =>
    intro st hst
    simp only [List.foldl_cons]
    by_cases hc : ¬(|W a col| = 0) ∧ (st.2 = 0 ∨ st.2 < |W a col|)
    · have hstep : pivotStepQ W col st a = (a, |W a col|) := by
        unfold pivotStepQ
        rw [if_pos hc]
      rw [hstep]
      obtain ⟨p1, p2, p3⟩ := ih (a, |W a col|) rfl
      refine ⟨p1, ?_, ?_⟩
      · intro h0
        obtain ⟨h0a, -⟩ := p2 h0
        exact absurd h0a hc.1
      · rcases p3 with h | h
        · exact Or.inr (by rw [h]; exact List.mem_cons_self a L)
        · exact Or.inr (List.mem_cons_of_mem a h)
    · have hstep : pivotStepQ W col st a = st := by
        unfold pivotStepQ
        rw [if_neg hc]
      rw [hstep]
      obtain ⟨p1, p2, p3⟩ := ih st hst
      refine ⟨p1, ?_, ?_⟩
      · intro h0
        obtain ⟨h0a, hall⟩ := p2 h0
        refine ⟨h0a, ?_⟩
        intro b hb
        rcases List.mem_cons.mp hb with rfl | hbL
        · rcases Decidable.not_and_iff_or_not.mp hc with hz | ho
          · have : |W b col| = 0 := by
              by_contra hne
              exact hz hne
            exact abs_eq_zero.mp this
          · exfalso
            exact ho (Or.inl h0a)
        · exact hall b hbL
      · rcases p3 with h | h
        · exact Or.inl h
        · exact Or.inr (List.mem_cons_of_mem a h)

theorem findPivotQ_ge {n m : ℕ} (W : Matrix (Fin n) (Fin m) ℚ)
    (startRow : Fin n) (col : Fin m) : startRow ≤ findPivotQ W startRow col := by
  obtain ⟨-, -, p3⟩ := pivotStepQ_foldl_spec W col
    ((List.finRange n).filter fun i => startRow < i) (startRow, |W startRow col|) rfl
  rw [findPivotQ_eq_fold]
  rcases p3 with h | h
  · rw [h]
  · simp only [List.mem_filter, decide_eq_true_eq] at h
    exact le_of_lt h.2

theorem findPivotQ_zero {n m : ℕ} (W : Matrix (Fin n) (Fin m) ℚ)
    (startRow : Fin n) (col : Fin m)
    (hz : W (findPivotQ W startRow col) col = 0) :
    ∀ r : Fin n, startRow ≤ r → W r col = 0 := by
  obtain ⟨p1, p2, -⟩ := pivotStepQ_foldl_spec W col
    ((List.finRange n).filter fun i => startRow < i) (startRow, |W startRow col|) rfl
  rw [findPivotQ_eq_fold] at hz
  have habs :
      (((List.finRange n).filter fun i => startRow < i).foldl (pivotStepQ W col)
        (startRow, |W startRow col|)).2 = 0 := by
    rw [p1, hz, abs_zero]
  obtain ⟨h0, hall⟩ := p2 habs
  intro r hr
  rcases eq_or_lt_of_le hr with rfl | hlt
  · exact abs_eq_zero.mp h0
  · exact hall r (List.mem_filter.mpr ⟨List.mem_finRange r, by simpa using hlt⟩)

theorem det_eq_prod_diag_of_lower_zero {n : ℕ} (W : Mat n)
    (h : ∀ r c : Fin n, (c : ℕ) < (r : ℕ) → W r c = 0) :
    W.det = ∏ i : Fin n, W i i := by
  apply Matrix.det_of_upperTriangular
  intro r c hrc
  exact h r c hrc

theorem det_zero_of_corner :
    ∀ (i : ℕ) {n : ℕ} (W : Mat n), i < n →
      (∀ r c : Fin n, i ≤ (r : ℕ) → (c : ℕ) ≤ i → W r c = 0) → W.det = 0 := by
  intro i
  induction i with
  | zero =>
    intro n W hi h
    exact Matrix.det_eq_zero_of_column_eq_zero ⟨0, hi⟩
      (fun r => h r ⟨0, hi⟩ (Nat.zero_le _) (Nat.le_refl _))
  | succ i ih =>
    intro n W hi h
    obtain ⟨m, rfl⟩ : ∃ m, n = m + 1 := ⟨n - 1, by omega⟩
    rw [Matrix.det_succ_column_zero]
    apply Finset.sum_eq_zero
    intro r _
    by_cases hr : i + 1 ≤ (r : ℕ)
    · rw [h r 0 hr (Nat.zero_le _)]
      ring
    · have hr2 : (r : ℕ) ≤ i := by omega
      have hminor : (W.submatrix r.succAbove Fin.succ).det = 0 := by
        apply ih _ (by omega)
        intro r2 c2 hr2le hc2
        have hrow : r.succAbove r2 = r2.succ := by
          apply Fin.succAbove_of_le_castSucc
          rw [Fin.le_def]
          simp only [Fin.coe_castSucc]
          omega
        rw [Matrix.submatrix_apply, hrow]
        apply h
        · simp only [Fin.val_succ]
          omega
        · simp only [Fin.val_succ]
          omega
      rw [hminor]
      ring

theorem swapRows_eq_submatrix {n m : ℕ} (W : Matrix (Fin n) (Fin m) ℚ)
    (a b : Fin n) : swapRows W a b = W.submatrix (Equiv.swap a b) id := by
  funext r c
  simp only [swapRows, Matrix.submatrix_apply, Equiv.swap_apply_def, id]
  split_ifs <;> rfl

theorem det_swapRows {n : ℕ} (W : Mat n) (a b : Fin n) (hab : a ≠ b) :
    (swapRows W a b).det = -W.det := by
  rw [swapRows_eq_submatrix, Matrix.det_permute, Equiv.Perm.sign_swap hab]
  simp

theorem det_eliminateBelowQ {n : ℕ} (W : Mat n) (i : Fin n) :
    (eliminateBelowQ W i).det = W.det := by
  apply Matrix.det_eq_of_forall_row_eq_smul_add_const
    (fun r : Fin n => if (i : ℕ) < (r : ℕ) ∧ ¬(W r i = 0) then -(W r i) / W i i else 0) i
  · rw [if_neg]
    simp
  · intro r c
    unfold eliminateBelowQ
    by_cases hc : (i : ℕ) < (r : ℕ) ∧ ¬(W r i = 0)
    · rw [if_pos hc, if_pos hc]
    · rw [if_neg hc, if_neg hc]
      ring

theorem eliminateBelowQ_zeroes_col {n : ℕ} (W : Mat n) (i : Fin n)
    (hpiv : W i i ≠ 0) (r : Fin n) (hr : (i : ℕ) < (r : ℕ)) :
    eliminateBelowQ W i r i = 0 := by
  unfold eliminateBelowQ
  by_cases hz : W r i = 0
  · rw [if_neg (by tauto), hz]
  · rw [if_pos ⟨hr, hz⟩]
    field_simp

theorem eliminateBelowQ_preserves_zero {n : ℕ} (W : Mat n) (i : Fin n)
    (r c : Fin n) (h1 : W r c = 0) (h2 : W i c = 0) :
    eliminateBelowQ W i r c = 0 := by
  unfold eliminateBelowQ
  split_ifs
  · rw [h1, h2]
    ring
  · exact h1

theorem swapRows_left_apply {n m : ℕ} (W : Matrix (Fin n) (Fin m) ℚ)
    (a b : Fin n) (c : Fin m) : swapRows W a b a c = W b c := by
  unfold swapRows
  rw [if_pos rfl]

theorem swapRows_inv {n m : ℕ} (W : Matrix (Fin n) (Fin m) ℚ) (i p : Fin n)
    (hip : i ≤ p) (k : ℕ)
    (hinv : ∀ (r : Fin n) (c : Fin m), (c : ℕ) < k → (c : ℕ) < (r : ℕ) → W r c = 0)
    (hki : k ≤ (i : ℕ)) :
    ∀ (r : Fin n) (c : Fin m), (c : ℕ) < k → (c : ℕ) < (r : ℕ) →
      swapRows W i p r c = 0 := by
  intro r c hc hcr
  have hip2 : (i : ℕ) ≤ (p : ℕ) := hip
  unfold swapRows
  split_ifs with h1 h2
  · exact hinv p c hc (by omega)
  · exact hinv i c hc (by omega)
  · exact hinv r c hc hcr

theorem parity_sign (s : ℕ) (x : ℚ) :
    (if s % 2 = 1 then -x else x) = (-1 : ℚ) ^ s * x := by
  rcases Nat.even_or_odd s with he | ho
  · have h2 : s % 2 = 0 := Nat.even_iff.mp he
    rw [if_neg (by omega), he.neg_one_pow, one_mul]
  · have h2 : s % 2 = 1 := Nat.odd_iff.mp ho
    rw [if_pos h2, ho.neg_one_pow]
    ring

theorem gaussForwardQ_step {n : ℕ} (fuel i : ℕ) (W : Mat n) (swaps : ℕ)
    (h : i < n - 1) (hn : i < n) :
    gaussForwardQ (fuel + 1) i W swaps =
      (if W (findPivotQ W ⟨i, hn⟩ ⟨i, hn⟩) ⟨i, hn⟩ = 0 then none
       else if findPivotQ W ⟨i, hn⟩ ⟨i, hn⟩ = ⟨i, hn⟩ then
         gaussForwardQ fuel (i + 1) (eliminateBelowQ W ⟨i, hn⟩) swaps
       else
         gaussForwardQ fuel (i + 1)
           (eliminateBelowQ
             (swapRows W ⟨i, hn⟩ (findPivotQ W ⟨i, hn⟩ ⟨i, hn⟩)) ⟨i, hn⟩)
           (swaps + 1)) := by
  simp only [gaussForwardQ, dif_pos h]

theorem gaussForwardQ_det {n : ℕ} :
    ∀ (fuel i : ℕ) (W : Mat n) (swaps : ℕ),
      (∀ r c : Fin n, (c : ℕ) < i → (c : ℕ) < (r : ℕ) → W r c = 0) →
      n - 1 - i ≤ fuel →
      (match gaussForwardQ fuel i W swaps with
       | none => (0 : ℚ)
       | some (W2, s2) => (-1 : ℚ) ^ s2 * ∏ j : Fin n, W2 j j)
        = (-1 : ℚ) ^ swaps * W.det := by
  intro fuel
  induction fuel with
  | zero =>
    intro i W swaps hinv hfuel
    simp only [gaussForwardQ]
    rw [det_eq_prod_diag_of_lower_zero W
      (fun r c hcr => hinv r c (by omega) hcr)]
  | succ fuel ih =>
    intro i W swaps hinv hfuel
    by_cases h : i < n - 1
    · have hn : i < n := by omega
      rw [gaussForwardQ_step fuel i W swaps h hn]
      by_cases hz : W (findPivotQ W ⟨i, hn⟩ ⟨i, hn⟩) ⟨i, hn⟩ = 0
      · rw [if_pos hz]
        have hdet : W.det = 0 := by
          apply det_zero_of_corner i W hn
          intro r c hr hc
          rcases eq_or_lt_of_le hc with hceq | hclt
          · have hceq2 : c = ⟨i, hn⟩ := Fin.ext hceq
            rw [hceq2]
            exact findPivotQ_zero W ⟨i, hn⟩ ⟨i, hn⟩ hz r hr
          · exact hinv r c (by omega) (by omega)
        rw [hdet]
        simp
      · rw [if_neg hz]
        by_cases hp : findPivotQ W ⟨i, hn⟩ ⟨i, hn⟩ = ⟨i, hn⟩
        · rw [if_pos hp]
          rw [hp] at hz
          have hinv2 : ∀ r c : Fin n, (c : ℕ) < i + 1 → (c : ℕ) < (r : ℕ) →
              eliminateBelowQ W ⟨i, hn⟩ r c = 0 := by
            intro r c hc hcr
            by_cases hci : (c : ℕ) = i
            · have hceq : c = ⟨i, hn⟩ := Fin.ext hci
              rw [hceq]
              exact eliminateBelowQ_zeroes_col W ⟨i, hn⟩ hz r (by omega)
            · have hc2 : (c : ℕ) < i := by omega
              exact eliminateBelowQ_preserves_zero W ⟨i, hn⟩ r c
                (hinv r c hc2 hcr) (hinv ⟨i, hn⟩ c hc2 hc2)
          calc (match gaussForwardQ fuel (i + 1) (eliminateBelowQ W ⟨i, hn⟩) swaps with
                | none => (0 : ℚ)
                | some (W2, s2) => (-1 : ℚ) ^ s2 * ∏ j : Fin n, W2 j j)
              = (-1 : ℚ) ^ swaps * (eliminateBelowQ W ⟨i, hn⟩).det :=
                ih (i + 1) (eliminateBelowQ W ⟨i, hn⟩) swaps hinv2 (by omega)
            _ = (-1 : ℚ) ^ swaps * W.det := by rw [det_eliminateBelowQ]
        · rw [if_neg hp]
          have hple : (⟨i, hn⟩ : Fin n) ≤ findPivotQ W ⟨i, hn⟩ ⟨i, hn⟩ :=
            findPivotQ_ge W ⟨i, hn⟩ ⟨i, hn⟩
          have hWpiv :
              swapRows W ⟨i, hn⟩ (findPivotQ W ⟨i, hn⟩ ⟨i, hn⟩) ⟨i, hn⟩ ⟨i, hn⟩ ≠ 0 := by
            rw [swapRows_left_apply]
            exact hz
          have hinvsw : ∀ r c : Fin n, (c : ℕ) < i → (c : ℕ) < (r : ℕ) →
              swapRows W ⟨i, hn⟩ (findPivotQ W ⟨i, hn⟩ ⟨i, hn⟩) r c = 0 :=
            swapRows_inv W ⟨i, hn⟩ (findPivotQ W ⟨i, hn⟩ ⟨i, hn⟩) hple i hinv
              (Nat.le_refl i)
          have hinv2 : ∀ r c : Fin n, (c : ℕ) < i + 1 → (c : ℕ) < (r : ℕ) →
              eliminateBelowQ
                (swapRows W ⟨i, hn⟩ (findPivotQ W ⟨i, hn⟩ ⟨i, hn⟩)) ⟨i, hn⟩ r c = 0 := by
            intro r c hc hcr
            by_cases hci : (c : ℕ) = i
            · have hceq : c = ⟨i, hn⟩ := Fin.ext hci
              rw [hceq]
              exact eliminateBelowQ_zeroes_col _ ⟨i, hn⟩ hWpiv r (by omega)
            · have hc2 : (c : ℕ) < i := by omega
              exact eliminateBelowQ_preserves_zero _ ⟨i, hn⟩ r c
                (hinvsw r c hc2 hcr) (hinvsw ⟨i, hn⟩ c hc2 hc2)
          calc (match gaussForwardQ fuel (i + 1)
                  (eliminateBelowQ
                    (swapRows W ⟨i, hn⟩ (findPivotQ W ⟨i, hn⟩ ⟨i, hn⟩)) ⟨i, hn⟩)
                  (swaps + 1) with
                | none => (0 : ℚ)
                | some (W2, s2) => (-1 : ℚ) ^ s2 * ∏ j : Fin n, W2 j j)
              = (-1 : ℚ) ^ (swaps + 1) *
                  (eliminateBelowQ
                    (swapRows W ⟨i, hn⟩ (findPivotQ W ⟨i, hn⟩ ⟨i, hn⟩)) ⟨i, hn⟩).det :=
                ih (i + 1) _ (swaps + 1) hinv2 (by omega)
            _ = (-1 : ℚ) ^ (swaps + 1) *
                  (swapRows W ⟨i, hn⟩ (findPivotQ W ⟨i, hn⟩ ⟨i, hn⟩)).det := by
                rw [det_eliminateBelowQ]
            _ = (-1 : ℚ) ^ (swaps + 1) * (-W.det) := by
                rw [det_swapRows W ⟨i, hn⟩ (findPivotQ W ⟨i, hn⟩ ⟨i, hn⟩)
                  (fun heq => hp heq.symm)]
            _ = (-1 : ℚ) ^ swaps * W.det := by
                rw [pow_succ]
                ring
    · simp only [gaussForwardQ, dif_neg h]
      rw [det_eq_prod_diag_of_lower_zero W
        (fun r c hcr => hinv r c (by omega) hcr)]

theorem gaussDetCoreQ_eq_det {n : ℕ} (A : Mat n) : gaussDetCoreQ A = A.det := by
  have h := gaussForwardQ_det n 0 A 0 (by intro r c hc; omega) (by omega)
  unfold gaussDetCoreQ
  cases hres : gaussForwardQ n 0 A 0 with
  | none =>
    rw [hres] at h
    simp only [pow_zero, one_mul] at h
    exact h
  | some p =>
    obtain ⟨W2, s2⟩ := p
    rw [hres] at h
    simp only [pow_zero, one_mul] at h
    show (if s2 % 2 = 1 then -(∏ i : Fin n, W2 i i) else ∏ i : Fin n, W2 i i) = A.det
    rw [parity_sign]
    exact h

/-- C1 (amended).  The rational determinant engines agree exactly: for
every square matrix (in particular every size from 1 to 6),
`LaplaceExpansionFractions.calculateDeterminant` and
`GaussianEliminationFractions.calculateDeterminant` — each converting the
input through `fromDecimal` and then computing with exact fractions —
return the same value (both compute the determinant of the converted
matrix). -/
theorem rational_determinant_engines_agree :
    ∀ (n : ℕ) (M : Mat (n + 1)),
      laplaceFractionsCalculateDeterminant M = gaussFractionsCalculateDeterminant M := by
  intro n M
  unfold laplaceFractionsCalculateDeterminant gaussFractionsCalculateDeterminant
  rw [laplaceDetCoreQ_eq_det, gaussDetCoreQ_eq_det]

/-- Counterexample for C1 as stated: on the 2x2 matrix
`[[5e-11, 1], [0, 4e10]]` the floating-point cofactor engine returns 2
(the exact determinant) while the floating-point Gaussian-elimination
engine returns 0 (its pivot 5e-11 is below the 1e-10 cutoff), so the two
floating variants differ by 2 — far beyond the 1e-10 tolerance. -/
theorem float_determinant_engines_counterexample :
    laplaceCalculateDeterminantF (!![mkRat 1 20000000000, 1; 0, mkRat 40000000000 1]) = 2 ∧
      gaussCalculateDeterminantF (!![mkRat 1 20000000000, 1; 0, mkRat 40000000000 1]) = 0 ∧
      ¬(|laplaceCalculateDeterminantF (!![mkRat 1 20000000000, 1; 0, mkRat 40000000000 1]) -
          gaussCalculateDeterminantF (!![mkRat 1 20000000000, 1; 0, mkRat 40000000000 1])| < tol) := by
  refine ⟨?_, ?_, ?_⟩ <;> with_unfolding_all decide

/-! ### The optimal-axis selector (C6) -/

theorem mem_axisList {n : ℕ} (a : Axis n) : a ∈ axisList n := by
  cases a with
  | row i =>
    exact List.mem_append_left _ (List.mem_map.mpr ⟨i, List.mem_finRange i, rfl⟩)
  | col j =>
    exact List.mem_append_right _ (List.mem_map.mpr ⟨j, List.mem_finRange j, rfl⟩)

theorem axisList_pairwise (n : ℕ) :
    (axisList n).Pairwise (fun x y : Axis n => x.pos < y.pos) := by
  unfold axisList
  rw [List.pairwise_append]
  refine ⟨?_, ?_, ?_⟩
  · rw [List.pairwise_map]
    exact (List.pairwise_lt_finRange n).imp (fun hab => hab)
  · rw [List.pairwise_map]
    exact (List.pairwise_lt_finRange n).imp (fun hab => Nat.add_lt_add_left hab n)
  · intro x hx y hy
    obtain ⟨i, -, rfl⟩ := List.mem_map.mp hx
    obtain ⟨j, -, rfl⟩ := List.mem_map.mp hy
    show (i : ℕ) < n + (j : ℕ)
    have := i.isLt
    omega

theorem selectAxis_foldl_spec {n : ℕ} (cnt : Axis n → ℕ) :
    ∀ (L : List (Axis n)) (st : Axis n × ℤ) (r : Axis n × ℤ),
      L.foldl (selectAxis cnt) st = r →
      st.2 ≤ r.2 ∧ (∀ a ∈ L, (cnt a : ℤ) ≤ r.2) ∧
        (r = st ∨
          ((cnt r.1 : ℤ) = r.2 ∧ st.2 < r.2 ∧
            ∃ L1 L2, L = L1 ++ r.1 :: L2 ∧ ∀ a ∈ L1, (cnt a : ℤ) < r.2)) := by
  intro L
  induction L with
  | nil =>
    intro st r hr
    simp only [List.foldl_nil] at hr
    subst hr
    exact ⟨le_refl _, by simp, Or.inl rfl⟩
  | cons a L ih =>
    intro st r hr
    simp only [List.foldl_cons] at hr
    by_cases hlt : st.2 < (cnt a : ℤ)
    · have hsel : selectAxis cnt st a = (a, (cnt a : ℤ)) := by
        unfold selectAxis
        rw [if_pos hlt]
      rw [hsel] at hr
      obtain ⟨h1, h2, h3⟩ := ih (a, (cnt a : ℤ)) r hr
      refine ⟨le_of_lt (lt_of_lt_of_le hlt h1), ?_, ?_⟩
      · intro x hx
        rcases List.mem_cons.mp hx with hxa | hxL
        · subst hxa; exact h1
        · exact h2 x hxL
      · rcases h3 with hre | ⟨hc, hm, L1, L2, hdec, hpre⟩
        · right
          refine ⟨by rw [hre], by rw [hre]; exact hlt, [], L, ?_, by simp⟩
          have hr1 : r.1 = a := by rw [hre]
          rw [hr1]
          simp
        · right
          refine ⟨hc, lt_trans hlt hm, a :: L1, L2, by rw [hdec]; simp, ?_⟩
          intro x hx
          rcases List.mem_cons.mp hx with hxa | hxL
          · subst hxa; exact hm
          · exact hpre x hxL
    · have hsel : selectAxis cnt st a = st := by
        unfold selectAxis
        rw [if_neg hlt]
      rw [hsel] at hr
      obtain ⟨h1, h2, h3⟩ := ih st r hr
      refine ⟨h1, ?_, ?_⟩
      · intro x hx
        rcases List.mem_cons.mp hx with hxa | hxL
        · subst hxa
          exact le_trans (le_of_not_lt hlt) h1
        · exact h2 x hxL
      · rcases h3 with hre | ⟨hc, hm, L1, L2, hdec, hpre⟩
        · exact Or.inl hre
        · right
          refine ⟨hc, hm, a :: L1, L2, by rw [hdec]; simp, ?_⟩
          intro x hx
          rcases List.mem_cons.mp hx with hxa | hxL
          · subst hxa
            exact lt_of_le_of_lt (le_of_not_lt hlt) hm
          · exact hpre x hxL

theorem findOptimal_spec {n : ℕ} (p : ℚ → Bool) (init : ℤ) (A : Mat (n + 1))
    (hinit : init = -1 ∨ init = 0) :
    (axisZeroCount p A (findOptimal p init A).1 : ℤ) = (findOptimal p init A).2 ∧
      (∀ a : Axis (n + 1),
        axisZeroCount p A a ≤ axisZeroCount p A (findOptimal p init A).1) ∧
      (∀ a : Axis (n + 1),
        axisZeroCount p A a = axisZeroCount p A (findOptimal p init A).1 →
          Axis.pos (findOptimal p init A).1 ≤ Axis.pos a) := by
  obtain ⟨h1, h2, h3⟩ := selectAxis_foldl_spec (axisZeroCount p A) (axisList (n + 1))
    (Axis.row 0, init) (findOptimal p init A) rfl
  have hcnt : (axisZeroCount p A (findOptimal p init A).1 : ℤ) =
      (findOptimal p init A).2 := by
    rcases h3 with hre | ⟨hc, -, -⟩
    · have h0 := h2 (Axis.row 0) (mem_axisList _)
      have hfst : (findOptimal p init A).1 = Axis.row 0 := by rw [hre]
      have hsnd : (findOptimal p init A).2 = init := by rw [hre]
      rw [hfst, hsnd]
      rw [hsnd] at h0
      rcases hinit with h | h <;> rw [h] at h0 ⊢ <;> omega
    · exact hc
  refine ⟨hcnt, ?_, ?_⟩
  · intro a
    have hle := h2 a (mem_axisList a)
    rw [← hcnt] at hle
    exact_mod_cast hle
  · intro a ha
    rcases h3 with hre | ⟨-, -, L1, L2, hdec, hpre⟩
    · have hfst : (findOptimal p init A).1 = Axis.row 0 := by rw [hre]
      rw [hfst]
      show ((0 : Fin (n + 1)) : ℕ) ≤ Axis.pos a
      simp
    · have hamem := mem_axisList a
      rw [hdec] at hamem
      rcases List.mem_append.mp hamem with hL1 | hcons
      · have hlt := hpre a hL1
        rw [← hcnt] at hlt
        have hlt2 : axisZeroCount p A a <
            axisZeroCount p A (findOptimal p init A).1 := by exact_mod_cast hlt
        omega
      · rcases List.mem_cons.mp hcons with heq | hL2
        · rw [heq]
        · have hpair := axisList_pairwise (n + 1)
          rw [hdec] at hpair
          have hp2 := (List.pairwise_append.mp hpair).2.1
          exact le_of_lt ((List.pairwise_cons.mp hp2).1 a hL2)

/-- C6.  Both variants of `findOptimalExpansionRowOrColumn` (the rational
one starting `maxZeros` at -1 with the exact zero test, the floating one
starting at 0 with the 1e-10 near-zero test) return an axis whose zero
count equals the returned `maxZeros` and is the greatest over all rows and
columns, and among axes attaining that count the returned one comes first
in scan order (all rows in index order, then all columns in index order);
in particular a matrix with a fully (near-)zero row always selects a row
whose zero count is the matrix size. -/
theorem optimal_axis_selector :
    ∀ (n : ℕ) (A : Mat (n + 1)),
      ((axisZeroCount isZeroQ A (findOptimalQ A).1 : ℤ) = (findOptimalQ A).2 ∧
        (∀ a : Axis (n + 1),
          axisZeroCount isZeroQ A a ≤ axisZeroCount isZeroQ A (findOptimalQ A).1) ∧
        (∀ a : Axis (n + 1),
          axisZeroCount isZeroQ A a = axisZeroCount isZeroQ A (findOptimalQ A).1 →
            Axis.pos (findOptimalQ A).1 ≤ Axis.pos a)) ∧
      ((axisZeroCount isZeroF A (findOptimalF A).1 : ℤ) = (findOptimalF A).2 ∧
        (∀ a : Axis (n + 1),
          axisZeroCount isZeroF A a ≤ axisZeroCount isZeroF A (findOptimalF A).1) ∧
        (∀ a : Axis (n + 1),
          axisZeroCount isZeroF A a = axisZeroCount isZeroF A (findOptimalF A).1 →
            Axis.pos (findOptimalF A).1 ≤ Axis.pos a)) ∧
      (∀ i : Fin (n + 1), (∀ j, A i j = 0) →
        ∃ i2 : Fin (n + 1), (findOptimalQ A).1 = Axis.row i2 ∧
          axisZeroCount isZeroQ A (Axis.row i2) = n + 1) ∧
      (∀ i : Fin (n + 1), (∀ j, |A i j| < tol) →
        ∃ i2 : Fin (n + 1), (findOptimalF A).1 = Axis.row i2 ∧
          axisZeroCount isZeroF A (Axis.row i2) = n + 1) := by
  intro n A
  obtain ⟨hq1, hq2, hq3⟩ := findOptimal_spec isZeroQ (-1) A (Or.inl rfl)
  obtain ⟨hf1, hf2, hf3⟩ := findOptimal_spec isZeroF 0 A (Or.inr rfl)
  have hQdef : findOptimal isZeroQ (-1) A = findOptimalQ A := rfl
  have hFdef : findOptimal isZeroF 0 A = findOptimalF A := rfl
  rw [hQdef] at hq1 hq2 hq3
  rw [hFdef] at hf1 hf2 hf3
  refine ⟨⟨hq1, hq2, hq3⟩, ⟨hf1, hf2, hf3⟩, ?_, ?_⟩
  · intro i hi
    have hrow : axisZeroCount isZeroQ A (Axis.row i) = n + 1 := by
      show rowZeroCount isZeroQ A i = n + 1
      unfold rowZeroCount
      rw [Finset.filter_true_of_mem]
      · simp
      · intro j hj
        simp [isZeroQ, hi j]
    have hle := hq2 (Axis.row i)
    rw [hrow] at hle
    have hub : axisZeroCount isZeroQ A (findOptimalQ A).1 ≤ n + 1 := by
      cases hax : (findOptimalQ A).1 with
      | row k =>
        show rowZeroCount isZeroQ A k ≤ n + 1
        have := Finset.card_filter_le (Finset.univ : Finset (Fin (n + 1)))
          (fun j => isZeroQ (A k j) = true)
        simpa using this
      | col k =>
        show colZeroCount isZeroQ A k ≤ n + 1
        have := Finset.card_filter_le (Finset.univ : Finset (Fin (n + 1)))
          (fun r => isZeroQ (A r k) = true)
        simpa using this
    have hcnt : axisZeroCount isZeroQ A (findOptimalQ A).1 = n + 1 := le_antisymm hub hle
    have hpos := hq3 (Axis.row i) (by rw [hrow, hcnt])
    cases hax : (findOptimalQ A).1 with
    | row k =>
      refine ⟨k, rfl, ?_⟩
      rw [← hax]
      exact hcnt
    | col k =>
      exfalso
      rw [hax] at hpos
      have : n + 1 + (k : ℕ) ≤ (i : ℕ) := hpos
      have := i.isLt
      omega
  · intro i hi
    have hrow : axisZeroCount isZeroF A (Axis.row i) = n + 1 := by
      show rowZeroCount isZeroF A i = n + 1
      unfold rowZeroCount
      rw [Finset.filter_true_of_mem]
      · simp
      · intro j hj
        simp [isZeroF, hi j]
    have hle := hf2 (Axis.row i)
    rw [hrow] at hle
    have hub : axisZeroCount isZeroF A (findOptimalF A).1 ≤ n + 1 := by
      cases hax : (findOptimalF A).1 with
      | row k =>
        show rowZeroCount isZeroF A k ≤ n + 1
        have := Finset.card_filter_le (Finset.univ : Finset (Fin (n + 1)))
          (fun j => isZeroF (A k j) = true)
        simpa using this
      | col k =>
        show colZeroCount isZeroF A k ≤ n + 1
        have := Finset.card_filter_le (Finset.univ : Finset (Fin (n + 1)))
          (fun r => isZeroF (A r k) = true)
        simpa using this
    have hcnt : axisZeroCount isZeroF A (findOptimalF A).1 = n + 1 := le_antisymm hub hle
    have hpos := hf3 (Axis.row i) (by rw [hrow, hcnt])
    cases hax : (findOptimalF A).1 with
    | row k =>
      refine ⟨k, rfl, ?_⟩
      rw [← hax]
      exact hcnt
    | col k =>
      exfalso
      rw [hax] at hpos
      have : n + 1 + (k : ℕ) ≤ (i : ℕ) := hpos
      have := i.isLt
      omega

/-- Witness for C6: on `[[0, 0], [5, 7]]` (row 0 entirely zero) both
selectors pick a row with zero count 2. -/
theorem optimal_axis_selector_witness :
    (∃ i2 : Fin 2, (findOptimalQ !![(0 : ℚ), 0; 5, 7]).1 = Axis.row i2 ∧
      axisZeroCount isZeroQ !![(0 : ℚ), 0; 5, 7] (Axis.row i2) = 2) ∧
    (∃ i2 : Fin 2, (findOptimalF !![(0 : ℚ), 0; 5, 7]).1 = Axis.row i2 ∧
      axisZeroCount isZeroF !![(0 : ℚ), 0; 5, 7] (Axis.row i2) = 2) :=
  ⟨(optimal_axis_selector 1 !![(0 : ℚ), 0; 5, 7]).2.2.1 0
      (by intro j; fin_cases j <;> with_unfolding_all decide),
    (optimal_axis_selector 1 !![(0 : ℚ), 0; 5, 7]).2.2.2 0
      (by intro j; fin_cases j <;> with_unfolding_all decide)⟩

/-! ### Linear-system solvers (C3, C7, C8, C9) -/

/-- The Solution object of types/matrix.ts; optional fields that a given
code path does not set are `none`.  The source field `variables` is
called `vars` here, `variables` being reserved in Lean. -/
structure Solution where
  vars : List ℚ
  fractionVariables : Option (List ℚ)
  determinant : Option ℚ
  fractionDeterminant : Option ℚ
  isUnique : Bool
  hasInfiniteSolutions : Bool
  hasNoSolution : Bool
deriving DecidableEq

/-- An augmented system matrix: `n` coefficient columns plus the constant
column. -/
abbrev AugMat (n : ℕ) := Matrix (Fin n) (Fin (n + 1)) ℚ

/-- MatrixMath.createAugmentedMatrix / FractionMatrixUtils.
createAugmentedMatrix: append the constant vector as a last column. -/
def augment {n : ℕ} (A : Mat n) (b : Fin n → ℚ) : AugMat n :=
  fun r c => if h : (c : ℕ) < n then A r ⟨(c : ℕ), h⟩ else b r

/-- FractionMatrixUtils.fromNumberVector (fraction.ts lines 220-222):
convert each entry through `Fraction.fromDecimal`. -/
def fromNumberVector {n : ℕ} (b : Fin n → ℚ) : Fin n → ℚ :=
  fun i => fromDecimalValue (b i)

/-- Elimination below pivot row `i` in GaussianElimination.solve
(gaussianElimination.ts lines 57-77): the row update runs only when
`|factor| > 1e-10`, with `factor = -W[j][i] / W[i][i]`; each row is
updated from the unchanged pivot row. -/
def elimBelowAugF {n : ℕ} (W : AugMat n) (i : Fin n) : AugMat n :=
  fun r c =>
    if (i : ℕ) < (r : ℕ) ∧ tol < |(-(W r i.castSucc)) / W i i.castSucc| then
      W r c + -(W r i.castSucc) / W i i.castSucc * W i c
    else W r c

/-- One column of the forward phase of GaussianElimination.solve (lines
31-77): find the pivot; `continue` when it is below tolerance, otherwise
swap it into place when needed and eliminate below. -/
def gaussSolveStepF {n : ℕ} (W : AugMat n) (i : Fin n) : AugMat n :=
  if |W (findPivotF W i i.castSucc) i.castSucc| < tol then W
  else if findPivotF W i i.castSucc = i then elimBelowAugF W i
  else elimBelowAugF (swapRows W i (findPivotF W i i.castSucc)) i

/-- Forward phase of GaussianElimination.solve:
`for (let i = 0; i < n - 1; i++)`. -/
def gaussSolveForwardF {n : ℕ} (W : AugMat n) : AugMat n :=
  ((List.finRange n).filter fun i : Fin n => (i : ℕ) < n - 1).foldl gaussSolveStepF W

/-- Elimination below pivot row `i` in GaussianEliminationFractions.solve
(gaussianElimination.ts lines 360-385): exact zero guard on the entry. -/
def elimBelowAugQ {n : ℕ} (W : AugMat n) (i : Fin n) : AugMat n :=
  fun r c =>
    if (i : ℕ) < (r : ℕ) ∧ ¬(W r i.castSucc = 0) then
      W r c + -(W r i.castSucc) / W i i.castSucc * W i c
    else W r c

/-- One column of the forward phase of GaussianEliminationFractions.solve
(lines 335-385). -/
def gaussSolveStepQ {n : ℕ} (W : AugMat n) (i : Fin n) : AugMat n :=
  if W (findPivotQ W i i.castSucc) i.castSucc = 0 then W
  else if findPivotQ W i i.castSucc = i then elimBelowAugQ W i
  else elimBelowAugQ (swapRows W i (findPivotQ W i i.castSucc)) i

/-- Forward phase of GaussianEliminationFractions.solve. -/
def gaussSolveForwardQ {n : ℕ} (W : AugMat n) : AugMat n :=
  ((List.finRange n).filter fun i : Fin n => (i : ℕ) < n - 1).foldl gaussSolveStepQ W

/-- One row of the back-substitution loop, shared by both solve variants
(gaussianElimination.ts lines 160-180 and 470-500: the float and the
fraction code perform the same rational operations):
`x_i = (b_i - sum of a_ij * x_j for j > i) / a_ii`. -/
def backSubStep {n : ℕ} (W : AugMat n) (i : Fin n) (v : Fin n → ℚ) :
    Fin n → ℚ :=
  fun r =>
    if r = i then
      (W i (Fin.last n) -
          ∑ j : Fin n, if (i : ℕ) < (j : ℕ) then W i j.castSucc * v j else 0) /
        W i i.castSucc
    else v r

/-- `for (let i = n - 1; i >= 0; i--)`: rows processed bottom-up. -/
def backSubLoop {n : ℕ} (W : AugMat n) : ℕ → (Fin n → ℚ) → (Fin n → ℚ)
  | 0, v => v
  | k + 1, v =>
    if h : k < n then backSubLoop W k (backSubStep W ⟨k, h⟩ v)
    else backSubLoop W k v

/-- Row `i` of the augmented matrix has all coefficient entries below the
1e-10 tolerance (`allZeros` in GaussianElimination.backSubstitution). -/
def rowCoeffAllZeroF {n : ℕ} (W : AugMat n) (i : Fin n) : Bool :=
  decide (∀ j : Fin n, ¬(tol < |W i j.castSucc|))

/-- GaussianElimination.backSubstitution (gaussianElimination.ts lines
88-189): inconsistent row check, then free-variable (rank) check, then
back substitution. -/
def backSubstitutionF {n : ℕ} (W : AugMat n) : Solution :=
  if ∃ i : Fin n, rowCoeffAllZeroF W i = true ∧ tol < |W i (Fin.last n)| then
    ⟨[], none, none, none, false, false, true⟩
  else if (Finset.univ.filter
      fun i : Fin n => ¬(rowCoeffAllZeroF W i = true)).card < n then
    ⟨[], none, none, none, false, true, false⟩
  else
    ⟨(List.finRange n).map (backSubLoop W n fun _ => 0), none, none, none,
      true, false, false⟩

/-- Row `i` has all coefficient entries exactly zero (`allZeros` in
GaussianEliminationFractions.backSubstitution). -/
def rowCoeffAllZeroQ {n : ℕ} (W : AugMat n) (i : Fin n) : Bool :=
  decide (∀ j : Fin n, W i j.castSucc = 0)

/-- GaussianEliminationFractions.backSubstitution (gaussianElimination.ts
lines 390-510): exact analogue of the float path; the unique branch also
carries the fraction variables. -/
def backSubstitutionQ {n : ℕ} (W : AugMat n) : Solution :=
  if ∃ i : Fin n, rowCoeffAllZeroQ W i = true ∧ ¬(W i (Fin.last n) = 0) then
    ⟨[], none, none, none, false, false, true⟩
  else if (Finset.univ.filter
      fun i : Fin n => ¬(rowCoeffAllZeroQ W i = true)).card < n then
    ⟨[], none, none, none, false, true, false⟩
  else
    ⟨(List.finRange n).map (backSubLoop W n fun _ => 0),
      some ((List.finRange n).map (backSubLoop W n fun _ => 0)), none, none,
      true, false, false⟩

/-- GaussianElimination.solve (gaussianElimination.ts lines 9-84). -/
def gaussianSolveF {n : ℕ} (A : Mat n) (b : Fin n → ℚ) : Solution :=
  backSubstitutionF (gaussSolveForwardF (augment A b))

/-- GaussianEliminationFractions.solve (gaussianElimination.ts lines
309-388): convert to fractions, then eliminate and back-substitute. -/
def gaussianFractionsSolve {n : ℕ} (A : Mat n) (b : Fin n → ℚ) : Solution :=
  backSubstitutionQ
    (gaussSolveForwardQ (augment (fromNumberMatrix A) (fromNumberVector b)))

/-- The no-solution object built by GaussJordanFractions.solve on a zero
pivot (unnamed/part_000 lines 525-533): empty variables, empty fraction
variables, no determinant field. -/
def noSolutionGJF : Solution := ⟨[], some [], none, none, false, false, true⟩

/-- Partial pivoting of GaussJordanFractions.solve (lines 496-504): plain
argmax of `|entry|` from row `i` down, strict improvement. -/
def gjfPivot {n : ℕ} (W : AugMat n) (i : Fin n) : Fin n :=
  ((List.finRange n).filter fun k => i < k).foldl
    (fun mr k => if |W mr i.castSucc| < |W k i.castSucc| then k else mr) i

/-- The working matrix after the conditional row swap (lines 507-521). -/
def gjfSwapped {n : ℕ} (W : AugMat n) (i : Fin n) : AugMat n :=
  if gjfPivot W i = i then W else swapRows W i (gjfPivot W i)

/-- Pivot normalization (lines 536-553): divide row `i` by the captured
pivot value. -/
def gjfNormalize {n : ℕ} (W : AugMat n) (i : Fin n) : AugMat n :=
  fun r c => if r = i then W i c / W i i.castSucc else W r c

/-- Forward elimination below the pivot (lines 556-582): subtract
`factor = W[k][i]` times the (already normalized) pivot row. -/
def gjfElimBelow {n : ℕ} (W : AugMat n) (i : Fin n) : AugMat n :=
  fun r c =>
    if (i : ℕ) < (r : ℕ) ∧ ¬(W r i.castSucc = 0) then
      W r c - W r i.castSucc * W i c
    else W r c

/-- One column of the forward phase of GaussJordanFractions.solve (lines
494-584): pivot search, swap, immediate no-solution return on a zero
pivot, normalization to 1, elimination below. -/
def gjfBody {n : ℕ} (W : AugMat n) (i : Fin n) : Except Solution (AugMat n) :=
  if (gjfSwapped W i) i i.castSucc = 0 then Except.error noSolutionGJF
  else
    Except.ok
      (gjfElimBelow
        (if (gjfSwapped W i) i i.castSucc = 1 then gjfSwapped W i
         else gjfNormalize (gjfSwapped W i) i) i)

/-- Fold step over the columns: a `return` already taken (error) stops all
later columns. -/
def gjfStep {n : ℕ} (st : Except Solution (AugMat n)) (i : Fin n) :
    Except Solution (AugMat n) :=
  match st with
  | Except.error e => Except.error e
  | Except.ok W => gjfBody W i

/-- The whole forward phase of GaussJordanFractions.solve. -/
def gjfForward {n : ℕ} (W0 : AugMat n) : Except Solution (AugMat n) :=
  (List.finRange n).foldl gjfStep (Except.ok W0)

/-- Backward elimination above the pivot (lines 587-612). -/
def gjfBackStep {n : ℕ} (W : AugMat n) (i : Fin n) : AugMat n :=
  fun r c =>
    if (r : ℕ) < (i : ℕ) ∧ ¬(W r i.castSucc = 0) then
      W r c - W r i.castSucc * W i c
    else W r c

/-- Backward phase: `for (let i = n - 1; i >= 0; i--)`. -/
def gjfBackward {n : ℕ} (W0 : AugMat n) : AugMat n :=
  ((List.finRange n).reverse).foldl gjfBackStep W0

/-- The variables read off the reduced matrix (lines 615-618). -/
def gjfVars {n : ℕ} (W : AugMat n) : List ℚ :=
  (List.finRange n).map fun i => gjfBackward W i (Fin.last n)

/-- Result assembly of GaussJordanFractions.solve: the early no-solution
object, or the unique solution with the literal `determinant: 1`
(lines 620-627). -/
def gjfFinish {n : ℕ} (r : Except Solution (AugMat n)) : Solution :=
  match r with
  | Except.error s => s
  | Except.ok W =>
    ⟨gjfVars W, some (gjfVars W), some 1, none, true, false, false⟩

/-- GaussJordanFractions.solve (unnamed/part_000 lines 468-625). -/
def gjfSolve {n : ℕ} (A : Mat n) (b : Fin n → ℚ) : Solution :=
  gjfFinish (gjfForward (augment (fromNumberMatrix A) (fromNumberVector b)))

/-- The column replacement of Cramer's rule. -/
def cramerReplaceCol {n : ℕ} (A : Mat n) (b : Fin n → ℚ) (i : Fin n) :
    Mat n :=
  fun r c => if c = i then b r else A r c

/-- LaplaceExpansion.solveByCramersRule (laplaceExpansion.ts lines
402-509): singular guard `|det| < 1e-10`, then one determinant per
variable. -/
def solveByCramersRuleF {n : ℕ} (A : Mat (n + 1)) (b : Fin (n + 1) → ℚ) :
    Solution :=
  if |laplaceCalculateDeterminantF A| < tol then
    ⟨[], none, some (laplaceCalculateDeterminantF A), none, false, true, false⟩
  else
    ⟨(List.finRange (n + 1)).map
        (fun i => laplaceCalculateDeterminantF (cramerReplaceCol A b i) /
          laplaceCalculateDeterminantF A),
      none, some (laplaceCalculateDeterminantF A), none, true, false, false⟩

/-- The modified matrix of the fraction Cramer path (unnamed/part_000
lines 403-409) as the number matrix handed back to
`calculateDeterminant`: converted entries with column `i` replaced by the
converted constants. -/
def cramerModifiedQ {n : ℕ} (A : Mat (n + 1)) (b : Fin (n + 1) → ℚ)
    (i : Fin (n + 1)) : Mat (n + 1) :=
  fun r c => if c = i then fromDecimalValue (b r) else fromDecimalValue (A r c)

/-- LaplaceExpansionFractions.solveByCramersRule (unnamed/part_000 lines
343-464): exact singular guard on the fraction determinant. -/
def solveByCramersRuleQ {n : ℕ} (A : Mat (n + 1)) (b : Fin (n + 1) → ℚ) :
    Solution :=
  if laplaceFractionsCalculateDeterminant A = 0 then
    ⟨[], none, some (laplaceFractionsCalculateDeterminant A),
      some (laplaceFractionsCalculateDeterminant A), false, true, false⟩
  else
    ⟨(List.finRange (n + 1)).map
        (fun i => laplaceFractionsCalculateDeterminant (cramerModifiedQ A b i) /
          laplaceFractionsCalculateDeterminant A),
      some ((List.finRange (n + 1)).map
        (fun i => laplaceFractionsCalculateDeterminant (cramerModifiedQ A b i) /
          laplaceFractionsCalculateDeterminant A)),
      some (laplaceFractionsCalculateDeterminant A),
      some (laplaceFractionsCalculateDeterminant A), true, false, false⟩

/-- The C3 invariant: exactly one classification flag, and variables only
on the unique path. -/
def solutionWellFormed (s : Solution) : Prop :=
  ((s.isUnique = true ∧ s.hasInfiniteSolutions = false ∧ s.hasNoSolution = false) ∨
    (s.isUnique = false ∧ s.hasInfiniteSolutions = true ∧ s.hasNoSolution = false) ∨
    (s.isUnique = false ∧ s.hasInfiniteSolutions = false ∧ s.hasNoSolution = true)) ∧
  (s.isUnique = false → s.vars = [])

theorem backSubstitutionF_wf {n : ℕ} (W : AugMat n) :
    solutionWellFormed (backSubstitutionF W) := by
  unfold backSubstitutionF solutionWellFormed
  split_ifs with h1 h2
  · exact ⟨Or.inr (Or.inr ⟨rfl, rfl, rfl⟩), fun _ => rfl⟩
  · exact ⟨Or.inr (Or.inl ⟨rfl, rfl, rfl⟩), fun _ => rfl⟩
  · exact ⟨Or.inl ⟨rfl, rfl, rfl⟩, fun h => h.elim⟩

theorem backSubstitutionQ_wf {n : ℕ} (W : AugMat n) :
    solutionWellFormed (backSubstitutionQ W) := by
  unfold backSubstitutionQ solutionWellFormed
  split_ifs with h1 h2
  · exact ⟨Or.inr (Or.inr ⟨rfl, rfl, rfl⟩), fun _ => rfl⟩
  · exact ⟨Or.inr (Or.inl ⟨rfl, rfl, rfl⟩), fun _ => rfl⟩
  · exact ⟨Or.inl ⟨rfl, rfl, rfl⟩, fun h => h.elim⟩

theorem gjfStep_foldl_error {n : ℕ} (e : Solution) :
    ∀ L : List (Fin n), L.foldl gjfStep (Except.error e) = Except.error e := by
  intro L
  induction L with
  | nil => rfl
  | cons a L ih =>
    simp only [List.foldl_cons]
    exact ih

theorem gjfBody_error_eq {n : ℕ} (W : AugMat n) (i : Fin n) (e : Solution)
    (h : gjfBody W i = Except.error e) : e = noSolutionGJF := by
  unfold gjfBody at h
  by_cases hz : (gjfSwapped W i) i i.castSucc = 0
  · rw [if_pos hz] at h
    exact (Except.error.injEq _ _).mp h.symm
  · rw [if_neg hz] at h
    exact absurd h (by simp)

theorem gjfForward_error {n : ℕ} :
    ∀ (L : List (Fin n)) (st : Except Solution (AugMat n)) (e : Solution),
      L.foldl gjfStep st = Except.error e →
      st = Except.error e ∨ e = noSolutionGJF := by
  intro L
  induction L with
  | nil =>
    intro st e h
    simp only [List.foldl_nil] at h
    exact Or.inl h
  | cons a L ih =>
    intro st e h
    simp only [List.foldl_cons] at h
    rcases ih _ e h with h2 | h2
    · cases st with
      | error e2 =>
        left
        have : (Except.error e2 : Except Solution (AugMat n)) = Except.error e := h2
        rw [(Except.error.injEq _ _).mp this]
      | ok W =>
        exact Or.inr (gjfBody_error_eq W a e h2)
    · exact Or.inr h2

/-- C3.  Every Solution returned by any of the five solver entry points
(float Gaussian solve, fraction Gaussian solve, Gauss-Jordan fraction
solve, and both Cramer variants) carries exactly one true classification
flag, and its variables list is empty unless the solution is unique. -/
theorem solver_flags_invariant :
    ∀ (n : ℕ) (A : Mat (n + 1)) (b : Fin (n + 1) → ℚ),
      solutionWellFormed (gaussianSolveF A b) ∧
      solutionWellFormed (gaussianFractionsSolve A b) ∧
      solutionWellFormed (gjfSolve A b) ∧
      solutionWellFormed (solveByCramersRuleF A b) ∧
      solutionWellFormed (solveByCramersRuleQ A b) := by
  intro n A b
  refine ⟨backSubstitutionF_wf _, backSubstitutionQ_wf _, ?_, ?_, ?_⟩
  · unfold gjfSolve
    cases hres : gjfForward (augment (fromNumberMatrix A) (fromNumberVector b)) with
    | error s =>
      rcases gjfForward_error _ _ _ hres with h2 | h2
      · exact absurd h2 (by simp)
      · subst h2
        exact ⟨Or.inr (Or.inr ⟨rfl, rfl, rfl⟩), fun _ => rfl⟩
    | ok W =>
      exact ⟨Or.inl ⟨rfl, rfl, rfl⟩, fun h => Bool.noConfusion h⟩
  · unfold solveByCramersRuleF
    split_ifs with h1
    · exact ⟨Or.inr (Or.inl ⟨rfl, rfl, rfl⟩), fun _ => rfl⟩
    · exact ⟨Or.inl ⟨rfl, rfl, rfl⟩, fun h => Bool.noConfusion h⟩
  · unfold solveByCramersRuleQ
    split_ifs with h1
    · exact ⟨Or.inr (Or.inl ⟨rfl, rfl, rfl⟩), fun _ => rfl⟩
    · exact ⟨Or.inl ⟨rfl, rfl, rfl⟩, fun h => Bool.noConfusion h⟩

/-- Witness for C3: the float Gaussian solver classifies the inconsistent
system x + y = 1, 2x + 2y = 3 as not unique, and accordingly returns no
variables. -/
theorem solver_flags_invariant_witness :
    (gaussianSolveF !![(1 : ℚ), 1; 2, 2] ![1, 3]).vars = [] :=
  (solver_flags_invariant 1 !![(1 : ℚ), 1; 2, 2] ![1, 3]).1.2
    (by with_unfolding_all decide)

/-- C7.  When the main determinant is (near-)zero, both Cramer variants
return the singular classification: infinite solutions, no no-solution
flag, not unique, empty variables — the float variant under the 1e-10
guard, the fraction variant under the exact zero guard. -/
theorem cramer_singular_classification :
    ∀ (n : ℕ) (A : Mat (n + 1)) (b : Fin (n + 1) → ℚ),
      (|laplaceCalculateDeterminantF A| < tol →
        solveByCramersRuleF A b =
          ⟨[], none, some (laplaceCalculateDeterminantF A), none,
            false, true, false⟩) ∧
      (laplaceFractionsCalculateDeterminant A = 0 →
        solveByCramersRuleQ A b =
          ⟨[], none, some (laplaceFractionsCalculateDeterminant A),
            some (laplaceFractionsCalculateDeterminant A),
            false, true, false⟩) := by
  intro n A b
  constructor
  · intro h
    unfold solveByCramersRuleF
    rw [if_pos h]
  · intro h
    unfold solveByCramersRuleQ
    rw [if_pos h]

/-- Witness for C7 on the singular system with matrix [[1, 2], [2, 4]]
and constants [3, 7]. -/
theorem cramer_singular_classification_witness :
    solveByCramersRuleF !![(1 : ℚ), 2; 2, 4] ![3, 7] =
        ⟨[], none, some (laplaceCalculateDeterminantF !![(1 : ℚ), 2; 2, 4]),
          none, false, true, false⟩ ∧
      solveByCramersRuleQ !![(1 : ℚ), 2; 2, 4] ![3, 7] =
        ⟨[], none,
          some (laplaceFractionsCalculateDeterminant !![(1 : ℚ), 2; 2, 4]),
          some (laplaceFractionsCalculateDeterminant !![(1 : ℚ), 2; 2, 4]),
          false, true, false⟩ :=
  ⟨(cramer_singular_classification 1 !![(1 : ℚ), 2; 2, 4] ![3, 7]).1
      (by with_unfolding_all decide),
    (cramer_singular_classification 1 !![(1 : ℚ), 2; 2, 4] ![3, 7]).2
      (by with_unfolding_all decide)⟩

theorem gjfPivot_ge {n : ℕ} (W : AugMat n) (i : Fin n) : i ≤ gjfPivot W i := by
  unfold gjfPivot
  have key : ∀ (L : List (Fin n)) (st : Fin n), i ≤ st → (∀ k ∈ L, i ≤ k) →
      i ≤ L.foldl
        (fun mr k => if |W mr i.castSucc| < |W k i.castSucc| then k else mr) st := by
    intro L
    induction L with
    | nil =>
      intro st h _
      simp only [List.foldl_nil]
      exact h
    | cons a L ih =>
      intro st h hall
      simp only [List.foldl_cons]
      by_cases hc : |W st i.castSucc| < |W a i.castSucc|
      · rw [if_pos hc]
        exact ih a (hall a (List.mem_cons_self a L))
          (fun k hk => hall k (List.mem_cons_of_mem a hk))
      · rw [if_neg hc]
        exact ih st h (fun k hk => hall k (List.mem_cons_of_mem a hk))
  apply key _ i (le_refl i)
  intro k hk
  have := List.of_mem_filter hk
  exact le_of_lt (by exact_mod_cast of_decide_eq_true this)

theorem gjfBody_zero_col {n : ℕ} (W : AugMat n) (i : Fin n)
    (h : ∀ r : Fin n, i ≤ r → W r i.castSucc = 0) :
    gjfBody W i = Except.error noSolutionGJF := by
  unfold gjfBody
  have hz : (gjfSwapped W i) i i.castSucc = 0 := by
    unfold gjfSwapped
    by_cases hswap : gjfPivot W i = i
    · rw [if_pos hswap]
      exact h i (le_refl i)
    · rw [if_neg hswap]
      show swapRows W i (gjfPivot W i) i i.castSucc = 0
      unfold swapRows
      rw [if_pos rfl]
      exact h _ (gjfPivot_ge W i)
  rw [if_pos hz]

/-- C8.  In the forward phase of GaussJordanFractions.solve, a column that
is entirely zero at and below the pivot row makes the column's iteration
return the no-solution object immediately: no later column is processed
(the fold stays at the error), the object has only the `hasNoSolution`
flag and empty variables, and whenever the forward phase errors the
solver's overall answer is exactly that object. -/
theorem gauss_jordan_zero_pivot_column :
    ∀ (n : ℕ) (W : AugMat n) (i : Fin n) (L : List (Fin n)),
      ((∀ r : Fin n, i ≤ r → W r i.castSucc = 0) →
        List.foldl gjfStep (Except.ok W) (i :: L) = Except.error noSolutionGJF) ∧
      (noSolutionGJF.isUnique = false ∧ noSolutionGJF.hasInfiniteSolutions = false ∧
        noSolutionGJF.hasNoSolution = true ∧ noSolutionGJF.vars = [] ∧
        noSolutionGJF.fractionVariables = some []) ∧
      (∀ (A : Mat n) (b : Fin n → ℚ),
        gjfForward (augment (fromNumberMatrix A) (fromNumberVector b)) =
            Except.error noSolutionGJF →
          gjfSolve A b = noSolutionGJF) := by
  intro n W i L
  refine ⟨?_, ⟨rfl, rfl, rfl, rfl, rfl⟩, ?_⟩
  · intro h
    simp only [List.foldl_cons]
    rw [show gjfStep (Except.ok W) i = gjfBody W i from rfl,
      gjfBody_zero_col W i h]
    exact gjfStep_foldl_error _ L
  · intro A b h
    unfold gjfSolve
    rw [h]
    rfl

/-- Witness for C8: on the augmented matrix [[0, 5, 1], [0, 7, 2]]
(column 0 all zero) the first column iteration already yields the
no-solution object and the second column leaves it; and the solver
applied to A = [[0, 0], [0, 1]], b = [1, 2] (whose forward phase errors)
returns exactly that object. -/
theorem gauss_jordan_zero_pivot_column_witness :
    List.foldl gjfStep (Except.ok !![(0 : ℚ), 5, 1; 0, 7, 2])
        ((0 : Fin 2) :: [1]) = Except.error noSolutionGJF ∧
      gjfSolve !![(0 : ℚ), 0; 0, 1] ![1, 2] = noSolutionGJF :=
  ⟨(gauss_jordan_zero_pivot_column 2 !![(0 : ℚ), 5, 1; 0, 7, 2] 0 [1]).1
      (by with_unfolding_all decide),
    (gauss_jordan_zero_pivot_column 2 !![(0 : ℚ), 5, 1; 0, 7, 2] 0 [1]).2.2
      !![(0 : ℚ), 0; 0, 1] ![1, 2] (by with_unfolding_all rfl)⟩

/-- C9.  Whenever GaussJordanFractions.solve reports a unique solution,
the determinant field of the returned Solution is the literal constant 1,
whatever the input system. -/
theorem gauss_jordan_unique_determinant_one :
    ∀ (n : ℕ) (A : Mat n) (b : Fin n → ℚ),
      (gjfSolve A b).isUnique = true → (gjfSolve A b).determinant = some 1 := by
  intro n A b h
  unfold gjfSolve at h ⊢
  cases hres : gjfForward (augment (fromNumberMatrix A) (fromNumberVector b)) with
  | error s =>
    rw [hres] at h
    rcases gjfForward_error _ _ _ hres with h2 | h2
    · exact absurd h2 (by simp)
    · subst h2
      exact Bool.noConfusion h
  | ok W =>
    rfl

/-- Witness for C9 on the system 2x + y = 8, x + 3y = 13, which has the
unique solution x = 11/5, y = 18/5 while det(A) = 5. -/
theorem gauss_jordan_unique_determinant_one_witness :
    (gjfSolve !![(2 : ℚ), 1; 1, 3] ![8, 13]).determinant = some 1 :=
  gauss_jordan_unique_determinant_one 2 !![(2 : ℚ), 1; 1, 3] ![8, 13]
    (by with_unfolding_all decide)

/-! ### Step snapshots and object identity (C5)

JS arrays are heap objects passed by reference.  `Heap` models the
matrix-valued objects alive during a run: a bump allocator plus the
content of every address.  A `CalculationStep`'s `matrix` field is the
address of the object the code stored there, so a step is a frozen value
exactly when that address is a fresh allocation the caller never owns. -/

/-- The matrix objects of a run: a bump allocator. -/
structure Heap where
  next : ℕ
  mem : ℕ → List (List ℚ)

/-- Allocate a fresh object holding `v` (the address is `h.next`). -/
def heapAlloc (h : Heap) (v : List (List ℚ)) : Heap :=
  ⟨h.next + 1, fun a => if a = h.next then v else h.mem a⟩

/-- Mutate the object at address `a` (what the caller can do to the
matrix it passed in). -/
def heapWrite (h : Heap) (a : ℕ) (v : List (List ℚ)) : Heap :=
  ⟨h.next, fun x => if x = a then v else h.mem x⟩

/-- The number rows produced from the working matrix:
`workMatrix.map(r => r.map(f => f.toDecimal()))`. -/
def matToList {n : ℕ} (W : Mat n) : List (List ℚ) :=
  (List.finRange n).map fun r => (List.finRange n).map fun c => W r c

/-- State of GaussJordanDeterminant.calculateDeterminant projected onto
its heap-visible behaviour: the allocator, the addresses pushed as step
snapshots after the first step, and the working matrix value. -/
structure GJDState (n : ℕ) where
  heap : Heap
  snaps : List ℕ
  W : Mat n

/-- Push one snapshot step: allocate a fresh object holding the current
working-matrix values and record its address (gaussianElimination.ts
lines 986, 1005, 1036, 1052 all build a new `workMatrix.map(...)`
array). -/
def gjdEmit {n : ℕ} (st : GJDState n) : GJDState n :=
  ⟨heapAlloc st.heap (matToList st.W), st.snaps ++ [st.heap.next], st.W⟩

/-- Replace the working matrix value (in-place mutation of `workMatrix`,
which no emitted snapshot shares). -/
def gjdSetW {n : ℕ} (st : GJDState n) (W2 : Mat n) : GJDState n :=
  ⟨st.heap, st.snaps, W2⟩

/-- Pivot search of GaussJordanDeterminant (lines 974-980): plain argmax
of `|entry|` from row `i` down. -/
def gjdPivot {n : ℕ} (W : Mat n) (i : Fin n) : Fin n :=
  ((List.finRange n).filter fun k => i < k).foldl
    (fun pr k => if |W pr i| < |W k i| then k else pr) i

/-- Elimination below the pivot (lines 1019-1030): rows `k > i` with a
nonzero entry in column `i`, columns from `i` on, factor
`W[k][i] / W[i][i]`. -/
def gjdElim {n : ℕ} (W : Mat n) (i : Fin n) : Mat n :=
  fun r c =>
    if (i : ℕ) < (r : ℕ) ∧ ¬(W r i = 0) ∧ (i : ℕ) ≤ (c : ℕ) then
      W r c - W r i / W i i * W i c
    else W r c

/-- `hasElimination` (lines 1017-1027): some row below the pivot has a
nonzero entry in column `i`. -/
def gjdHasElim {n : ℕ} (W : Mat n) (i : Fin n) : Bool :=
  decide (∃ k : Fin n, (i : ℕ) < (k : ℕ) ∧ ¬(W k i = 0))

/-- Second half of one column iteration: eliminate, and push a snapshot
step only when an elimination happened (lines 1032-1039). -/
def gjdBody2 {n : ℕ} (st1 : GJDState n) (i : Fin n) :
    Except (GJDState n) (GJDState n) :=
  if gjdHasElim st1.W i = true then
    Except.ok (gjdEmit (gjdSetW st1 (gjdElim st1.W i)))
  else Except.ok (gjdSetW st1 (gjdElim st1.W i))

/-- One column iteration of the forward loop (lines 972-1041): pivot
search; on a zero pivot push the zero-determinant step and return early;
otherwise swap (pushing a snapshot) when needed, then eliminate. -/
def gjdBody {n : ℕ} (st : GJDState n) (i : Fin n) :
    Except (GJDState n) (GJDState n) :=
  if st.W (gjdPivot st.W i) i = 0 then Except.error (gjdEmit st)
  else
    gjdBody2
      (if gjdPivot st.W i = i then st
       else gjdEmit (gjdSetW st (swapRows st.W i (gjdPivot st.W i)))) i

/-- Fold step over the columns: an early return stops the loop. -/
def gjdStep {n : ℕ} (st : Except (GJDState n) (GJDState n)) (i : Fin n) :
    Except (GJDState n) (GJDState n) :=
  match st with
  | Except.error e => Except.error e
  | Except.ok s => gjdBody s i

/-- GaussJordanDeterminant.calculateDeterminant (gaussianElimination.ts
lines 955-1063) projected onto its emitted steps: the first step stores
the caller's matrix object `r` itself (lines 966-972 push `matrix`, not a
clone), the working copy is the converted fraction matrix, every later
step allocates a fresh snapshot, and a final step is pushed when the loop
completes (lines 1049-1055).  Returns the addresses of all emitted step
matrices in order, and the final heap. -/
def gjdRun {n : ℕ} (h0 : Heap) (r : ℕ) (M : Mat n) : List ℕ × Heap :=
  match (List.finRange n).foldl gjdStep
      (Except.ok (⟨h0, [], fromNumberMatrix M⟩ : GJDState n)) with
  | Except.error st => (r :: st.snaps, st.heap)
  | Except.ok st => (r :: (gjdEmit st).snaps, (gjdEmit st).heap)

/-- Frame invariant of a run started on heap `h0`: every snapshot pushed
so far is a fresh address still below the allocator mark, and no
pre-existing object has been written. -/
def GJDInv {n : ℕ} (h0 : Heap) (st : GJDState n) : Prop :=
  (∀ a ∈ st.snaps, h0.next ≤ a ∧ a < st.heap.next) ∧
  (∀ a, a < h0.next → st.heap.mem a = h0.mem a) ∧
  h0.next ≤ st.heap.next

/-- The invariant, through an early return or not. -/
def GJDInvE {n : ℕ} (h0 : Heap) : Except (GJDState n) (GJDState n) → Prop
  | Except.error st => GJDInv h0 st
  | Except.ok st => GJDInv h0 st

theorem gjdEmit_inv {n : ℕ} (h0 : Heap) (st : GJDState n)
    (inv : GJDInv h0 st) : GJDInv h0 (gjdEmit st) := by
  obtain ⟨h1, h2, h3⟩ := inv
  refine ⟨?_, ?_, ?_⟩
  · intro a ha
    have ha' : a ∈ st.snaps ++ [st.heap.next] := ha
    rcases List.mem_append.mp ha' with h | h
    · obtain ⟨g1, g2⟩ := h1 a h
      refine ⟨g1, ?_⟩
      show a < st.heap.next + 1
      omega
    · rw [List.mem_singleton.mp h]
      refine ⟨h3, ?_⟩
      show st.heap.next < st.heap.next + 1
      omega
  · intro a ha
    show (if a = st.heap.next then matToList st.W else st.heap.mem a) = h0.mem a
    have hne : ¬(a = st.heap.next) := by omega
    rw [if_neg hne]
    exact h2 a ha
  · show h0.next ≤ st.heap.next + 1
    omega

theorem gjdSetW_inv {n : ℕ} (h0 : Heap) (st : GJDState n) (W2 : Mat n)
    (inv : GJDInv h0 st) : GJDInv h0 (gjdSetW st W2) := inv

theorem gjdBody_inv {n : ℕ} (h0 : Heap) (st : GJDState n) (i : Fin n)
    (inv : GJDInv h0 st) : GJDInvE h0 (gjdBody st i) := by
  unfold gjdBody
  by_cases hz : st.W (gjdPivot st.W i) i = 0
  · rw [if_pos hz]
    exact gjdEmit_inv h0 st inv
  · rw [if_neg hz]
    have hst1 : GJDInv h0
        (if gjdPivot st.W i = i then st
         else gjdEmit (gjdSetW st (swapRows st.W i (gjdPivot st.W i)))) := by
      by_cases hsw : gjdPivot st.W i = i
      · rw [if_pos hsw]
        exact inv
      · rw [if_neg hsw]
        exact gjdEmit_inv h0 _ (gjdSetW_inv h0 st _ inv)
    unfold gjdBody2
    by_cases he : gjdHasElim
        (if gjdPivot st.W i = i then st
         else gjdEmit (gjdSetW st (swapRows st.W i (gjdPivot st.W i)))).W i = true
    · rw [if_pos he]
      exact gjdEmit_inv h0 _ (gjdSetW_inv h0 _ _ hst1)
    · rw [if_neg he]
      exact gjdSetW_inv h0 _ _ hst1

theorem gjd_foldl_inv {n : ℕ} (h0 : Heap) :
    ∀ (L : List (Fin n)) (st : Except (GJDState n) (GJDState n)),
      GJDInvE h0 st → GJDInvE h0 (L.foldl gjdStep st) := by
  intro L
  induction L with
  | nil =>
    intro st h
    exact h
  | cons a L ih =>
    intro st h
    simp only [List.foldl_cons]
    apply ih
    cases st with
    | error e => exact h
    | ok s => exact gjdBody_inv h0 s a h

/-- C5 (amended), for GaussJordanDeterminant.calculateDeterminant.  The
first emitted step embeds the caller's own matrix object `r` (a shared
reference, not a copy); every later step embeds a freshly allocated
snapshot: its address did not exist before the call, so it is distinct
from the caller's matrix and from every earlier object, and the run never
writes to any pre-existing object, so the working matrix's mutation never
changes an already-emitted snapshot. -/
theorem step_snapshot_amended :
    ∀ (n : ℕ) (h0 : Heap) (r : ℕ) (M : Mat n), r < h0.next →
      (gjdRun h0 r M).1.head? = some r ∧
      (∀ a ∈ (gjdRun h0 r M).1.tail,
        h0.next ≤ a ∧ a < (gjdRun h0 r M).2.next ∧ ¬(a = r)) ∧
      (∀ a, a < h0.next → (gjdRun h0 r M).2.mem a = h0.mem a) ∧
      h0.next ≤ (gjdRun h0 r M).2.next := by
  intro n h0 r M hr
  have hinv0 : GJDInvE h0
      (Except.ok (⟨h0, [], fromNumberMatrix M⟩ : GJDState n)) :=
    ⟨by simp, fun a _ => rfl, le_refl _⟩
  have hfold := gjd_foldl_inv h0 (List.finRange n) _ hinv0
  unfold gjdRun
  cases hres : (List.finRange n).foldl gjdStep
      (Except.ok (⟨h0, [], fromNumberMatrix M⟩ : GJDState n)) with
  | error st =>
    rw [hres] at hfold
    obtain ⟨h1, h2, h3⟩ := hfold
    refine ⟨rfl, ?_, h2, h3⟩
    intro a ha
    obtain ⟨g1, g2⟩ := h1 a ha
    exact ⟨g1, g2, by omega⟩
  | ok st =>
    rw [hres] at hfold
    obtain ⟨h1, h2, h3⟩ := gjdEmit_inv h0 st hfold
    refine ⟨rfl, ?_, h2, h3⟩
    intro a ha
    obtain ⟨g1, g2⟩ := h1 a ha
    exact ⟨g1, g2, by omega⟩

/-- Witness for the amended C5 statement on a 1x1 run. -/
theorem step_snapshot_amended_witness :
    (gjdRun (⟨1, fun _ => []⟩ : Heap) 0 !![(1 : ℚ)]).1.head? = some 0 :=
  (step_snapshot_amended 1 (⟨1, fun _ => []⟩ : Heap) 0 !![(1 : ℚ)]
    (by decide)).1

/-- Counterexample for C5 as stated: running the Gauss-Jordan determinant
engine on the caller's matrix object (address 0, content [[1, 2], [3, 4]])
emits a first step whose matrix is address 0 itself — a pre-existing
object owned by the caller, not a copy — so when the caller overwrites
its matrix with [[5, 5], [5, 5]] after the run, the matrix embedded in
the already-emitted first step reads back as the new content, no longer
the content it had when the step was emitted. -/
theorem step_snapshot_counterexample :
    (gjdRun (⟨1, fun _ => [[1, 2], [3, 4]]⟩ : Heap) 0
        !![(1 : ℚ), 2; 3, 4]).1.head? = some 0 ∧
      0 < (⟨1, fun _ => [[1, 2], [3, 4]]⟩ : Heap).next ∧
      (heapWrite
          (gjdRun (⟨1, fun _ => [[1, 2], [3, 4]]⟩ : Heap) 0
            !![(1 : ℚ), 2; 3, 4]).2 0 [[5, 5], [5, 5]]).mem 0 =
        [[5, 5], [5, 5]] ∧
      ¬(([[5, 5], [5, 5]] : List (List ℚ)) =
        (⟨1, fun _ => [[1, 2], [3, 4]]⟩ : Heap).mem 0) := by
  refine ⟨?_, ?_, ?_, ?_⟩ <;> with_unfolding_all decide

end Spec2Proof
